import Mathlib

/-!
Shallow embedding of the `usec` US stock-exchange calendar library
(`src/calendar.rs`): Gregorian date arithmetic (modelling `chrono::NaiveDate`),
the holiday-rule engine `Calendar::calc_calendar`, the business-day queries,
and the JSON wire encoding of holiday rules.
-/

/-- Day of week, as in `chrono::Weekday` (`Mon` … `Sun`). -/
inductive Weekday
  | mon | tue | wed | thu | fri | sat | sun
deriving DecidableEq

/-- A Gregorian calendar date, modelling `chrono::NaiveDate` as a plain
year/month/day triple; the library only ever constructs valid triples
(see `Date.Valid`). -/
structure Date where
  year : Int
  month : Nat
  day : Nat
deriving DecidableEq

/-- Gregorian leap-year test (`is_leap_year`, i.e.
`NaiveDate::from_ymd_opt(y, 2, 29).is_some()`). -/
def isLeap (y : Int) : Bool := y % 4 == 0 && (y % 100 != 0 || y % 400 == 0)

/-- Length of month `m` (1–12) in a leap/common year. -/
def monthLen (leap : Bool) (m : Nat) : Nat :=
  match m with
  | 1 => 31
  | 2 => if leap then 29 else 28
  | 3 => 31
  | 4 => 30
  | 5 => 31
  | 6 => 30
  | 7 => 31
  | 8 => 31
  | 9 => 30
  | 10 => 31
  | 11 => 30
  | 12 => 31
  | _ => 0

/-- Days in the months strictly before month `m` of a leap/common year. -/
def monthsBefore (leap : Bool) : Nat → Nat
  | 0 => 0
  | m + 1 => monthsBefore leap m + monthLen leap m

/-- Number of days in month `m` of year `y`. -/
def daysInMonth (y : Int) (m : Nat) : Nat := monthLen (isLeap y) m

/-- Number of days in year `y`. -/
def daysInYear (y : Int) : Int := if isLeap y then 366 else 365

/-- Days (Rata Die) strictly before January 1 of year `y`:
`365*(y-1) + ⌊(y-1)/4⌋ - ⌊(y-1)/100⌋ + ⌊(y-1)/400⌋`. -/
def daysBeforeYear (y : Int) : Int :=
  365 * (y - 1) + (y - 1) / 4 - (y - 1) / 100 + (y - 1) / 400

/-- Rata Die day number of a date (day 1 is January 1 of year 1). -/
def toRd (d : Date) : Int :=
  daysBeforeYear d.year + (monthsBefore (isLeap d.year) d.month : Int) + (d.day : Int)

/-- Weekday of a Rata Die day number; day 1 (0001-01-01) is a Monday. -/
def weekdayOfRd (rd : Int) : Weekday :=
  match (rd % 7).toNat with
  | 1 => .mon
  | 2 => .tue
  | 3 => .wed
  | 4 => .thu
  | 5 => .fri
  | 6 => .sat
  | _ => .sun

/-- Weekday of a date (`NaiveDate::weekday`). -/
def dayOfWeek (d : Date) : Weekday := weekdayOfRd (toRd d)

/-- A date triple is valid when its month and day are in Gregorian range;
every `chrono::NaiveDate` satisfies this by construction. -/
def Date.Valid (d : Date) : Prop :=
  1 ≤ d.month ∧ d.month ≤ 12 ∧ 1 ≤ d.day ∧ d.day ≤ daysInMonth d.year d.month

instance (d : Date) : Decidable d.Valid := by
  unfold Date.Valid; infer_instance

/-- `NaiveDate::from_ymd_opt`: build a date, `none` when out of range. -/
def fromYmd? (y : Int) (m d : Nat) : Option Date :=
  if (Date.mk y m d).Valid then some (Date.mk y m d) else none

/-- Next calendar day (`NaiveDate::succ_opt`, total on our unbounded years). -/
def succD (d : Date) : Date :=
  if d.day < daysInMonth d.year d.month then ⟨d.year, d.month, d.day + 1⟩
  else if d.month < 12 then ⟨d.year, d.month + 1, 1⟩
  else ⟨d.year + 1, 1, 1⟩

/-- Previous calendar day (`NaiveDate::pred_opt`, total on our unbounded years). -/
def predD (d : Date) : Date :=
  if 1 < d.day then ⟨d.year, d.month, d.day - 1⟩
  else if 1 < d.month then ⟨d.year, d.month - 1, daysInMonth d.year (d.month - 1)⟩
  else ⟨d.year - 1, 12, 31⟩

/-- `n`-fold successor. -/
def succIter (d : Date) : Nat → Date
  | 0 => d
  | n + 1 => succIter (succD d) n

/-- `n`-fold predecessor. -/
def predIter (d : Date) : Nat → Date
  | 0 => d
  | n + 1 => predIter (predD d) n

/-- Add a signed number of days (`NaiveDate::checked_add_signed` with a
day-valued `Duration`, total on our unbounded years). -/
def addDays (d : Date) (n : Int) : Date :=
  if 0 ≤ n then succIter d n.toNat else predIter d (-n).toNat

theorem isLeap_iff (y : Int) :
    isLeap y = true ↔ (y % 4 = 0 ∧ (¬ y % 100 = 0 ∨ y % 400 = 0)) := by
  simp [isLeap]

theorem daysBeforeYear_succ (y : Int) :
    daysBeforeYear (y + 1) = daysBeforeYear y + daysInYear y := by
  rcases Decidable.em (isLeap y = true) with hl | hl
  · rw [daysInYear, if_pos hl]
    rw [isLeap_iff] at hl
    unfold daysBeforeYear
    omega
  · rw [daysInYear, if_neg hl]
    rw [isLeap_iff] at hl
    push_neg at hl
    unfold daysBeforeYear
    omega

theorem daysInYear_ge (y : Int) : 365 ≤ daysInYear y := by
  unfold daysInYear; split <;> omega

theorem monthsBefore_step (leap : Bool) (m : Nat) :
    monthsBefore leap (m + 1) = monthsBefore leap m + monthLen leap m := rfl

theorem monthLen_pos (leap : Bool) (m : Nat) (h1 : 1 ≤ m) (h2 : m ≤ 12) :
    1 ≤ monthLen leap m := by
  interval_cases m <;> cases leap <;> decide

theorem monthLen_ge_28 (leap : Bool) (m : Nat) (h1 : 1 ≤ m) (h2 : m ≤ 12) :
    28 ≤ monthLen leap m := by
  interval_cases m <;> cases leap <;> decide

theorem monthsBefore_13 (leap : Bool) :
    (monthsBefore leap 13 : Int) = if leap then 366 else 365 := by
  cases leap <;> decide

theorem monthsBefore_mono (leap : Bool) {a b : Nat} (h : a ≤ b) :
    monthsBefore leap a ≤ monthsBefore leap b := by
  induction b with
  | zero =>
    have ha : a = 0 := by omega
    rw [ha]
  | succ n ih =>
    rcases Nat.lt_or_ge a (n + 1) with h' | h'
    · calc monthsBefore leap a ≤ monthsBefore leap n := ih (by omega)
        _ ≤ monthsBefore leap (n + 1) := by rw [monthsBefore_step]; omega
    · have : a = n + 1 := by omega
      rw [this]

theorem monthsBefore_add_day_le (leap : Bool) {m d : Nat}
    (h1 : 1 ≤ m) (h2 : m ≤ 12) (h3 : d ≤ monthLen leap m) :
    monthsBefore leap m + d ≤ monthsBefore leap 13 := by
  have : monthsBefore leap (m + 1) ≤ monthsBefore leap 13 := monthsBefore_mono leap (by omega)
  rw [monthsBefore_step] at this
  omega

theorem monthsBefore_12_numeric (leap : Bool) :
    monthsBefore leap 12 = if leap then 335 else 334 := by
  cases leap <;> decide

theorem monthLen_12_numeric (leap : Bool) : monthLen leap 12 = 31 := by
  cases leap <;> decide

theorem monthsBefore_1 (leap : Bool) : monthsBefore leap 1 = 0 := by
  cases leap <;> decide

theorem toRd_succD {d : Date} (h : d.Valid) : toRd (succD d) = toRd d + 1 := by
  obtain ⟨h1, h2, h3, h4⟩ := h
  unfold succD
  by_cases hd : d.day < daysInMonth d.year d.month
  · rw [if_pos hd]
    unfold toRd
    push_cast
    ring
  · rw [if_neg hd]
    have hday : d.day = daysInMonth d.year d.month := by omega
    by_cases hm : d.month < 12
    · rw [if_pos hm]
      unfold toRd
      simp only [monthsBefore_step]
      unfold daysInMonth at hday
      push_cast
      omega
    · rw [if_neg hm]
      have hm12 : d.month = 12 := by omega
      unfold toRd
      simp only [daysBeforeYear_succ]
      unfold daysInMonth at hday
      rw [hm12] at hday ⊢
      rw [monthLen_12_numeric] at hday
      rw [monthsBefore_12_numeric, monthsBefore_1]
      unfold daysInYear
      cases hb : isLeap d.year <;> simp <;> omega

theorem toRd_predD {d : Date} (h : d.Valid) : toRd (predD d) = toRd d - 1 := by
  obtain ⟨h1, h2, h3, h4⟩ := h
  unfold predD
  by_cases hd : 1 < d.day
  · rw [if_pos hd]
    unfold toRd
    push_cast
    omega
  · rw [if_neg hd]
    have hday : d.day = 1 := by omega
    by_cases hm : 1 < d.month
    · rw [if_pos hm]
      have hst : monthsBefore (isLeap d.year) (d.month - 1) + monthLen (isLeap d.year) (d.month - 1)
          = monthsBefore (isLeap d.year) d.month := by
        rw [← monthsBefore_step]
        congr 1
        omega
      unfold toRd
      unfold daysInMonth
      push_cast [← hst]
      omega
    · rw [if_neg hm]
      have hm1 : d.month = 1 := by omega
      unfold toRd
      have hsy : daysBeforeYear (d.year - 1 + 1)
          = daysBeforeYear (d.year - 1) + daysInYear (d.year - 1) :=
        daysBeforeYear_succ (d.year - 1)
      have hys : d.year - 1 + 1 = d.year := by omega
      rw [hys] at hsy
      rw [hm1, hday]
      rw [monthsBefore_12_numeric, monthsBefore_1]
      unfold daysInYear at hsy
      cases hb : isLeap (d.year - 1) <;> rw [hb] at hsy <;> simp at hsy ⊢ <;> omega

theorem valid_succD {d : Date} (h : d.Valid) : (succD d).Valid := by
  obtain ⟨h1, h2, h3, h4⟩ := h
  unfold succD
  by_cases hd : d.day < daysInMonth d.year d.month
  · rw [if_pos hd]
    refine ⟨h1, h2, ?_, ?_⟩
    · show 1 ≤ d.day + 1
      omega
    · show d.day + 1 ≤ daysInMonth d.year d.month
      omega
  · rw [if_neg hd]
    by_cases hm : d.month < 12
    · rw [if_pos hm]
      refine ⟨?_, ?_, ?_, ?_⟩
      · show 1 ≤ d.month + 1
        omega
      · show d.month + 1 ≤ 12
        omega
      · show 1 ≤ 1
        omega
      · show 1 ≤ daysInMonth d.year (d.month + 1)
        exact monthLen_pos (isLeap d.year) (d.month + 1) (by omega) (by omega)
    · rw [if_neg hm]
      refine ⟨?_, ?_, ?_, ?_⟩
      · show 1 ≤ 1
        omega
      · show 1 ≤ 12
        omega
      · show 1 ≤ 1
        omega
      · show 1 ≤ daysInMonth (d.year + 1) 1
        exact monthLen_pos (isLeap (d.year + 1)) 1 (by omega) (by omega)

theorem valid_predD {d : Date} (h : d.Valid) : (predD d).Valid := by
  obtain ⟨h1, h2, h3, h4⟩ := h
  unfold predD
  by_cases hd : 1 < d.day
  · rw [if_pos hd]
    refine ⟨h1, h2, ?_, ?_⟩
    · show 1 ≤ d.day - 1
      omega
    · show d.day - 1 ≤ daysInMonth d.year d.month
      omega
  · rw [if_neg hd]
    by_cases hm : 1 < d.month
    · rw [if_pos hm]
      refine ⟨?_, ?_, ?_, ?_⟩
      · show 1 ≤ d.month - 1
        omega
      · show d.month - 1 ≤ 12
        omega
      · show 1 ≤ daysInMonth d.year (d.month - 1)
        exact monthLen_pos (isLeap d.year) (d.month - 1) (by omega) (by omega)
      · show daysInMonth d.year (d.month - 1) ≤ daysInMonth d.year (d.month - 1)
        omega
    · rw [if_neg hm]
      refine ⟨?_, ?_, ?_, ?_⟩
      · show 1 ≤ 12
        omega
      · show 12 ≤ 12
        omega
      · show 1 ≤ 31
        omega
      · show 31 ≤ daysInMonth (d.year - 1) 12
        show 31 ≤ monthLen (isLeap (d.year - 1)) 12
        rw [monthLen_12_numeric]

theorem valid_succIter {d : Date} (h : d.Valid) (n : Nat) : (succIter d n).Valid := by
  induction n generalizing d with
  | zero => exact h
  | succ k ih => exact ih (valid_succD h)

theorem valid_predIter {d : Date} (h : d.Valid) (n : Nat) : (predIter d n).Valid := by
  induction n generalizing d with
  | zero => exact h
  | succ k ih => exact ih (valid_predD h)

theorem toRd_succIter {d : Date} (h : d.Valid) (n : Nat) :
    toRd (succIter d n) = toRd d + n := by
  induction n generalizing d with
  | zero => simp [succIter]
  | succ k ih =>
    have : toRd (succIter (succD d) k) = toRd (succD d) + k := ih (valid_succD h)
    simp only [succIter]
    rw [this, toRd_succD h]
    push_cast
    ring

theorem toRd_predIter {d : Date} (h : d.Valid) (n : Nat) :
    toRd (predIter d n) = toRd d - n := by
  induction n generalizing d with
  | zero => simp [predIter]
  | succ k ih =>
    have : toRd (predIter (predD d) k) = toRd (predD d) - k := ih (valid_predD h)
    simp only [predIter]
    rw [this, toRd_predD h]
    push_cast
    ring

theorem daysBeforeYear_mono {y y' : Int} (h : y ≤ y') :
    daysBeforeYear y ≤ daysBeforeYear y' := by
  have key : ∀ n : Nat, daysBeforeYear y ≤ daysBeforeYear (y + n) := by
    intro n
    induction n with
    | zero => simp
    | succ k ih =>
      have hs := daysBeforeYear_succ (y + k)
      have hg := daysInYear_ge (y + k)
      have hcast : y + ((k : Int) + 1) = (y + k) + 1 := by ring
      push_cast
      rw [hcast]
      omega
  have hn : y' = y + ((y' - y).toNat : Int) := by omega
  rw [hn]
  exact key _

theorem toRd_year_bounds {d : Date} (h : d.Valid) :
    daysBeforeYear d.year + 1 ≤ toRd d ∧
      toRd d ≤ daysBeforeYear d.year + daysInYear d.year := by
  obtain ⟨h1, h2, h3, h4⟩ := h
  unfold daysInMonth at h4
  unfold toRd
  constructor
  · omega
  · have hmb := monthsBefore_add_day_le (isLeap d.year) h1 h2 h4
    have h13 := monthsBefore_13 (isLeap d.year)
    unfold daysInYear
    cases hb : isLeap d.year <;> rw [hb] at h13 hmb <;> simp at h13 ⊢ <;> omega

theorem toRd_lt {a b : Date} (ha : a.Valid) (hb : b.Valid)
    (h : a.year < b.year ∨ (a.year = b.year ∧
      (a.month < b.month ∨ (a.month = b.month ∧ a.day < b.day)))) :
    toRd a < toRd b := by
  obtain ⟨ha1, ha2, ha3, ha4⟩ := ha
  obtain ⟨hb1, hb2, hb3, hb4⟩ := hb
  rcases h with hy | ⟨hy, h⟩
  · have b1 := toRd_year_bounds ⟨ha1, ha2, ha3, ha4⟩
    have b2 := toRd_year_bounds ⟨hb1, hb2, hb3, hb4⟩
    have h3 : daysBeforeYear (a.year + 1) ≤ daysBeforeYear b.year :=
      daysBeforeYear_mono (by omega)
    have h4 := daysBeforeYear_succ a.year
    omega
  · rcases h with hm | ⟨hm, hd⟩
    · unfold toRd
      rw [hy]
      unfold daysInMonth at ha4
      have hstep : monthsBefore (isLeap b.year) a.month + monthLen (isLeap b.year) a.month
          = monthsBefore (isLeap b.year) (a.month + 1) := (monthsBefore_step _ _).symm
      have hmono : monthsBefore (isLeap b.year) (a.month + 1)
          ≤ monthsBefore (isLeap b.year) b.month := monthsBefore_mono _ (by omega)
      rw [hy] at ha4
      omega
    · unfold toRd
      rw [hy, hm]
      omega

theorem toRd_inj {a b : Date} (ha : a.Valid) (hb : b.Valid)
    (h : toRd a = toRd b) : a = b := by
  rcases lt_trichotomy a.year b.year with hy | hy | hy
  · have := toRd_lt ha hb (Or.inl hy); omega
  · rcases lt_trichotomy a.month b.month with hm | hm | hm
    · have := toRd_lt ha hb (Or.inr ⟨hy, Or.inl hm⟩); omega
    · rcases lt_trichotomy a.day b.day with hd | hd | hd
      · have := toRd_lt ha hb (Or.inr ⟨hy, Or.inr ⟨hm, hd⟩⟩); omega
      · cases a; cases b; simp_all
      · have := toRd_lt hb ha (Or.inr ⟨hy.symm, Or.inr ⟨hm.symm, hd⟩⟩); omega
    · have := toRd_lt hb ha (Or.inr ⟨hy.symm, Or.inl hm⟩); omega
  · have := toRd_lt hb ha (Or.inl hy); omega

/-- Residue (mod 7) corresponding to each weekday. -/
def wdIndex : Weekday → Int
  | .mon => 1
  | .tue => 2
  | .wed => 3
  | .thu => 4
  | .fri => 5
  | .sat => 6
  | .sun => 0

theorem weekdayOfRd_eq_iff (r : Int) (w : Weekday) :
    weekdayOfRd r = w ↔ r % 7 = wdIndex w := by
  have hcase : r % 7 = 0 ∨ r % 7 = 1 ∨ r % 7 = 2 ∨ r % 7 = 3 ∨ r % 7 = 4 ∨
      r % 7 = 5 ∨ r % 7 = 6 := by omega
  unfold weekdayOfRd
  rcases hcase with h | h | h | h | h | h | h <;> rw [h] <;> cases w <;> decide

theorem dayOfWeek_eq_iff (d : Date) (w : Weekday) :
    dayOfWeek d = w ↔ toRd d % 7 = wdIndex w :=
  weekdayOfRd_eq_iff (toRd d) w

/-- `NthWeek`: which occurrence of a weekday within a month. -/
inductive NthWeek
  | First
  | Second
  | Third
  | Fourth
  | Last
deriving DecidableEq

/-- `HalfCheck`: do the half-day check before or after the target date. -/
inductive HalfCheck
  | Before
  | After
deriving DecidableEq

/-- The `Holiday` rule variants of `src/calendar.rs`. -/
inductive Holiday
  | WeekDay (w : Weekday)
  | MovableYearlyDay (month day : Nat) (first last : Option Int)
      (half_check : Option HalfCheck)
  | SingularDay (date : Date)
  | EasterOffset (offset : Int) (first last : Option Int)
  | MonthWeekday (month : Nat) (weekday : Weekday) (nth : NthWeek)
      (first last : Option Int) (half_check : Option HalfCheck)
deriving DecidableEq

/-- The `Calendar` snapshot: holiday set, half-day set, weekend weekdays.
The `BTreeSet`s are modelled at the membership level as duplicate-free lists. -/
structure Calendar where
  holidays : List Date
  halfdays : List Date
  weekdays : List Weekday
deriving DecidableEq

/-- A date-construction failure. `Calendar::from_ymd` panics via
`Option::unwrap`, which aborts the build and carries no information about
the offending rule or year. -/
inductive BuildErr
  | invalidDate
deriving DecidableEq

/-- `accounting_period_end`: (last day of the date's month, last day of its
year). The month end is computed as the day before the first of the next
month, falling back to January 1 of the next year; `from_ymd_opt(y, 12, 31)`
never fails, so the year end is written directly. -/
def accounting_period_end (d : Date) : Date × Date :=
  let lastDateOfMonth :=
    match fromYmd? d.year (d.month + 1) 1 with
    | some x => predD x
    | none => predD ⟨d.year + 1, 1, 1⟩
  (lastDateOfMonth, ⟨d.year, 12, 31⟩)

/-- `last_day_of_month`. -/
def last_day_of_month (y : Int) (m : Nat) : Nat :=
  (match fromYmd? y (m + 1) 1 with
   | some x => predD x
   | none => predD ⟨y + 1, 1, 1⟩).day

/-- `do_halfday_check`, returned as the half-day it inserts (if any). -/
def do_halfday_check (date : Date) (half_check : Option HalfCheck) : Option Date :=
  match half_check with
  | none => none
  | some .Before => if dayOfWeek date = .mon then none else some (predD date)
  | some .After => if dayOfWeek date = .fri then none else some (succD date)

/-- The weekend shift of `Holiday::MovableYearlyDay`: a Saturday candidate
moves back to Friday, a Sunday candidate forward to Monday; the Boolean is
the `moved_already` flag. -/
def weekendShift (d : Date) : Bool × Date :=
  match dayOfWeek d with
  | .sat => (true, predD d)
  | .sun => (true, succD d)
  | _ => (false, d)

/-- One year of the `Holiday::MovableYearlyDay` loop body: the holiday
inserted for that year (if any) and the half-day inserted (if any). -/
def movableYearStep (month day : Nat) (half_check : Option HalfCheck)
    (year : Int) : Except BuildErr (Option Date × Option Date) :=
  match fromYmd? year month day with
  | none => .error .invalidDate
  | some date =>
    let s := weekendShift date
    let pe := accounting_period_end s.2
    if s.2 ≠ pe.1 ∧ s.2 ≠ pe.2 then
      .ok (some s.2, if s.1 then none else do_halfday_check s.2 half_check)
    else
      .ok (none, none)

/-- Modelled from the spec: the external `computus::gregorian` dependency is
"the standard Gregorian computus algorithm" (anonymous Gregorian computus).
This is that algorithm's combined quantity `h + l - 7*m + 114`, of which the
Easter month is the quotient and the day the remainder (plus one) by 31. -/
def easterT (y : Int) : Int :=
  let a := y % 19
  let b := y / 100
  let c := y % 100
  let d := b / 4
  let e := b % 4
  let f := (b + 8) / 25
  let g := (b - f + 1) / 3
  let h := (19 * a + b - d - g + 15) % 30
  let i := c / 4
  let k := c % 4
  let l := (32 + 2 * e + 2 * i - h - k) % 7
  let m := (a + 11 * h + 22 * l) / 451
  h + l - 7 * m + 114

/-- Modelled from the spec: Easter Sunday's (month, day) for a year, by the
standard Gregorian computus. -/
def easterRaw (y : Int) : Nat × Nat :=
  ((easterT y / 31).toNat, (easterT y % 31 + 1).toNat)

/-- One year of the `Holiday::EasterOffset` loop body. -/
def easterYearStep (offset : Int) (year : Int) :
    Except BuildErr (Option Date × Option Date) :=
  match fromYmd? year (easterRaw year).1 (easterRaw year).2 with
  | none => .error .invalidDate
  | some e => .ok (some (addDays e offset), none)

/-- Whether the ordinal is `NthWeek::Last` (walk direction of the loop). -/
def isLastNth : NthWeek → Bool
  | .Last => true
  | _ => false

/-- Start day of the `Holiday::MonthWeekday` walk. -/
def nthStartDay (nth : NthWeek) (year : Int) (month : Nat) : Nat :=
  match nth with
  | .First => 1
  | .Second => 8
  | .Third => 15
  | .Fourth => 22
  | .Last => last_day_of_month year month

/-- The `while date.weekday() != weekday` walk of `Holiday::MonthWeekday`,
fuelled; fuel 7 always suffices from a valid start. -/
def seekWeekday (back : Bool) (w : Weekday) : Nat → Date → Date
  | 0, d => d
  | n + 1, d =>
    if dayOfWeek d = w then d
    else seekWeekday back w n (if back then predD d else succD d)

/-- One year of the `Holiday::MonthWeekday` loop body. -/
def monthWeekdayStep (month : Nat) (w : Weekday) (nth : NthWeek)
    (half_check : Option HalfCheck) (year : Int) :
    Except BuildErr (Option Date × Option Date) :=
  match fromYmd? year month (nthStartDay nth year month) with
  | none => .error .invalidDate
  | some d0 =>
    let d := seekWeekday (isLastNth nth) w 7 d0
    .ok (some d, do_halfday_check d half_check)

/-- `Calendar::calc_first_and_last`. -/
def calc_first_and_last (start stop : Int) (first last : Option Int) :
    Int × Int :=
  (match first with
   | some y => max start y
   | none => start,
   match last with
   | some y => min stop y
   | none => stop)

/-- The years iterated by `for year in first..last+1`. -/
def yearRange (a b : Int) : List Int :=
  (List.range (b + 1 - a).toNat).map (fun i : Nat => a + (i : Int))

/-- `BTreeSet::insert` at the membership level. -/
def insertD (s : List Date) (d : Date) : List Date :=
  if d ∈ s then s else d :: s

/-- Insert an optional date. -/
def optInsert (s : List Date) (o : Option Date) : List Date :=
  match o with
  | none => s
  | some d => insertD s d

/-- Merge one loop iteration's insertions into the accumulating calendar. -/
def mergeStep (st : Calendar) (h f : Option Date) : Calendar :=
  { st with holidays := optInsert st.holidays h, halfdays := optInsert st.halfdays f }

/-- Run a per-year loop body over a list of years. -/
def applyYears (step : Int → Except BuildErr (Option Date × Option Date)) :
    List Int → Calendar → Except BuildErr Calendar
  | [], st => .ok st
  | y :: ys, st =>
    match step y with
    | .error e => .error e
    | .ok hf => applyYears step ys (mergeStep st hf.1 hf.2)

/-- Process one rule of the `calc_calendar` loop. -/
def applyRule (start stop : Int) (st : Calendar) : Holiday → Except BuildErr Calendar
  | .SingularDay date =>
    .ok (if start ≤ date.year ∧ date.year ≤ stop
         then { st with holidays := insertD st.holidays date }
         else st)
  | .WeekDay w => .ok { st with weekdays := st.weekdays ++ [w] }
  | .MovableYearlyDay month day first last half_check =>
    let fl := calc_first_and_last start stop first last
    applyYears (movableYearStep month day half_check) (yearRange fl.1 fl.2) st
  | .EasterOffset offset first last =>
    let fl := calc_first_and_last start stop first last
    applyYears (easterYearStep offset) (yearRange fl.1 fl.2) st
  | .MonthWeekday month weekday nth first last half_check =>
    let fl := calc_first_and_last start stop first last
    applyYears (monthWeekdayStep month weekday nth half_check) (yearRange fl.1 fl.2) st

/-- Process the rule list in order. -/
def applyRules (start stop : Int) : List Holiday → Calendar → Except BuildErr Calendar
  | [], st => .ok st
  | r :: rs, st =>
    match applyRule start stop st r with
    | .error e => .error e
    | .ok st' => applyRules start stop rs st'

/-- `Calendar::calc_calendar` (fallible: the `from_ymd` unwrap-panics of the
Rust code become `BuildErr`). -/
def calc_calendar (holiday_rules : List Holiday) (start stop : Int) :
    Except BuildErr Calendar :=
  applyRules start stop holiday_rules ⟨[], [], []⟩

/-- The linear scan of `Calendar::is_weekend` over the weekend weekdays. -/
def weekendScan (w : Weekday) : List Weekday → Bool
  | [] => false
  | x :: xs => if w = x then true else weekendScan w xs

/-- `Calendar::is_weekend`. -/
def Calendar.is_weekend (cal : Calendar) (d : Date) : Bool :=
  weekendScan (dayOfWeek d) cal.weekdays

/-- `Calendar::is_holiday`. -/
def Calendar.is_holiday (cal : Calendar) (d : Date) : Bool :=
  cal.holidays.contains d

/-- `Calendar::is_half_holiday`. -/
def Calendar.is_half_holiday (cal : Calendar) (d : Date) : Bool :=
  cal.halfdays.contains d

/-- `Calendar::is_business_day`. -/
def Calendar.is_business_day (cal : Calendar) (d : Date) : Bool :=
  !cal.is_weekend d && !cal.is_holiday d

/-- `Calendar::next_biz_day`, fuelled: `none` means the unbounded walk did
not find a business day within the given fuel. -/
def Calendar.next_biz_day (cal : Calendar) : Nat → Date → Option Date
  | 0, _ => none
  | n + 1, d =>
    let d' := succD d
    if cal.is_business_day d' then some d' else cal.next_biz_day n d'

/-- `Calendar::prev_biz_day`, fuelled. -/
def Calendar.prev_biz_day (cal : Calendar) : Nat → Date → Option Date
  | 0, _ => none
  | n + 1, d =>
    let d' := predD d
    if cal.is_business_day d' then some d' else cal.prev_biz_day n d'

/-- The default NYSE rule table of `UsExchangeCalendar::with_default_range`
(without the environment-variable extension, which is configuration
plumbing outside the core). -/
def defaultRules : List Holiday :=
  [ .WeekDay .sat,
    .WeekDay .sun,
    .MovableYearlyDay 1 1 none none none,
    .MonthWeekday 1 .mon .Third none none none,
    .MonthWeekday 2 .mon .Third none none none,
    .EasterOffset (-2) (some 2000) none,
    .MonthWeekday 5 .mon .Last none none none,
    .MovableYearlyDay 6 19 (some 2022) none none,
    .MovableYearlyDay 7 4 none none (some .Before),
    .MonthWeekday 9 .mon .First none none none,
    .MonthWeekday 11 .thu .Fourth none none (some .After),
    .MovableYearlyDay 12 25 none none (some .Before),
    .SingularDay ⟨2001, 9, 11⟩ ]

theorem sanity_mlk_2021_monday : dayOfWeek ⟨2021, 1, 18⟩ = .mon := by decide

theorem sanity_y2k_saturday : dayOfWeek ⟨2000, 1, 1⟩ = .sat := by decide

theorem sanity_easter_2021 : easterRaw 2021 = (4, 4) := by decide

theorem sanity_easter_2022 : easterRaw 2022 = (4, 17) := by decide

theorem mem_insertD (s : List Date) (d x : Date) :
    x ∈ insertD s d ↔ x ∈ s ∨ x = d := by
  unfold insertD
  by_cases h : d ∈ s
  · rw [if_pos h]
    constructor
    · exact Or.inl
    · rintro (hx | rfl)
      · exact hx
      · exact h
  · rw [if_neg h]
    simp [List.mem_cons]
    tauto

theorem mem_optInsert (s : List Date) (o : Option Date) (x : Date) :
    x ∈ optInsert s o ↔ x ∈ s ∨ o = some x := by
  cases o with
  | none => simp [optInsert]
  | some d =>
    simp only [optInsert, mem_insertD, Option.some.injEq]
    tauto

theorem mem_yearRange (a b y : Int) : y ∈ yearRange a b ↔ a ≤ y ∧ y ≤ b := by
  unfold yearRange
  rw [List.mem_map]
  constructor
  · rintro ⟨i, hi, rfl⟩
    rw [List.mem_range] at hi
    omega
  · rintro ⟨h1, h2⟩
    refine ⟨(y - a).toNat, ?_, ?_⟩
    · rw [List.mem_range]
      omega
    · omega

theorem applyYears_ok_indep
    {step : Int → Except BuildErr (Option Date × Option Date)} {ys : List Int}
    {st st' : Calendar} (h : applyYears step ys st = .ok st') (st2 : Calendar) :
    ∃ st2', applyYears step ys st2 = .ok st2' := by
  induction ys generalizing st st2 with
  | nil => exact ⟨st2, rfl⟩
  | cons y ys ih =>
    unfold applyYears at h ⊢
    cases hstep : step y with
    | error e => rw [hstep] at h; exact absurd h (by simp)
    | ok hf => rw [hstep] at h; exact ih h _

theorem applyYears_mem
    {step : Int → Except BuildErr (Option Date × Option Date)} {ys : List Int}
    {st st' : Calendar} (h : applyYears step ys st = .ok st') :
    (∀ x, x ∈ st'.holidays ↔ x ∈ st.holidays ∨
        ∃ y ∈ ys, ∃ hf, step y = .ok (some x, hf)) ∧
    (∀ x, x ∈ st'.halfdays ↔ x ∈ st.halfdays ∨
        ∃ y ∈ ys, ∃ hd, step y = .ok (hd, some x)) ∧
    st'.weekdays = st.weekdays := by
  induction ys generalizing st with
  | nil =>
    unfold applyYears at h
    cases h
    simp
  | cons y ys ih =>
    unfold applyYears at h
    cases hstep : step y with
    | error e => rw [hstep] at h; exact absurd h (by simp)
    | ok hf =>
      obtain ⟨ho, hh⟩ := hf
      rw [hstep] at h
      obtain ⟨ihh, ihf, ihw⟩ := ih h
      refine ⟨?_, ?_, ?_⟩
      · intro x
        rw [ihh x]
        simp only [mergeStep, mem_optInsert, List.exists_mem_cons_iff]
        constructor
        · rintro ((hx | hx) | hx)
          · exact Or.inl hx
          · refine Or.inr (Or.inl ⟨hh, ?_⟩)
            rw [hstep, hx]
          · exact Or.inr (Or.inr hx)
        · rintro (hx | ⟨w, hw⟩ | hx)
          · exact Or.inl (Or.inl hx)
          · rw [hstep] at hw
            refine Or.inl (Or.inr ?_)
            cases hw
            rfl
          · exact Or.inr hx
      · intro x
        rw [ihf x]
        simp only [mergeStep, mem_optInsert, List.exists_mem_cons_iff]
        constructor
        · rintro ((hx | hx) | hx)
          · exact Or.inl hx
          · refine Or.inr (Or.inl ⟨ho, ?_⟩)
            rw [hstep, hx]
          · exact Or.inr (Or.inr hx)
        · rintro (hx | ⟨w, hw⟩ | hx)
          · exact Or.inl (Or.inl hx)
          · rw [hstep] at hw
            refine Or.inl (Or.inr ?_)
            cases hw
            rfl
          · exact Or.inr hx
      · rw [ihw]
        rfl

theorem applyYears_ok_of_steps
    {step : Int → Except BuildErr (Option Date × Option Date)} {ys : List Int}
    (h : ∀ y ∈ ys, ∃ v, step y = .ok v) (st : Calendar) :
    ∃ st', applyYears step ys st = .ok st' := by
  induction ys generalizing st with
  | nil => exact ⟨st, rfl⟩
  | cons y ys ih =>
    obtain ⟨v, hv⟩ := h y (List.mem_cons_self y ys)
    unfold applyYears
    rw [hv]
    exact ih (fun y' hy' => h y' (List.mem_cons_of_mem y hy')) _

theorem applyYears_error_of_step
    {step : Int → Except BuildErr (Option Date × Option Date)} {ys : List Int}
    (h : ∃ y ∈ ys, ∃ e, step y = .error e) (st : Calendar) :
    ∃ e, applyYears step ys st = .error e := by
  induction ys generalizing st with
  | nil => simp at h
  | cons y ys ih =>
    unfold applyYears
    cases hstep : step y with
    | error e => exact ⟨e, rfl⟩
    | ok hf =>
      obtain ⟨y', hy', e', he'⟩ := h
      rcases List.mem_cons.mp hy' with rfl | hy'
      · rw [hstep] at he'; exact absurd he' (by simp)
      · exact ih ⟨y', hy', e', he'⟩ _

/-- The year loop body used by a rule variant (no loop for the other two). -/
def ruleStep (r : Holiday) : Int → Except BuildErr (Option Date × Option Date) :=
  match r with
  | .MovableYearlyDay month day _ _ half_check => movableYearStep month day half_check
  | .EasterOffset offset _ _ => easterYearStep offset
  | .MonthWeekday month weekday nth _ _ half_check => monthWeekdayStep month weekday nth half_check
  | _ => fun _ => .ok (none, none)

/-- The clamped year list of a rule (empty for the two loop-free variants). -/
def ruleYears (start stop : Int) : Holiday → List Int
  | .MovableYearlyDay _ _ first last _ =>
    yearRange (calc_first_and_last start stop first last).1
      (calc_first_and_last start stop first last).2
  | .EasterOffset _ first last =>
    yearRange (calc_first_and_last start stop first last).1
      (calc_first_and_last start stop first last).2
  | .MonthWeekday _ _ _ first last _ =>
    yearRange (calc_first_and_last start stop first last).1
      (calc_first_and_last start stop first last).2
  | _ => []

/-- The holidays a single rule contributes over the build range. -/
def ruleHolidayContrib (start stop : Int) (r : Holiday) (x : Date) : Prop :=
  match r with
  | .WeekDay _ => False
  | .SingularDay d => x = d ∧ start ≤ d.year ∧ d.year ≤ stop
  | _ => ∃ y ∈ ruleYears start stop r, ∃ hf, ruleStep r y = .ok (some x, hf)

/-- The half-days a single rule contributes over the build range. -/
def ruleHalfdayContrib (start stop : Int) (r : Holiday) (x : Date) : Prop :=
  match r with
  | .WeekDay _ => False
  | .SingularDay _ => False
  | _ => ∃ y ∈ ruleYears start stop r, ∃ hd, ruleStep r y = .ok (hd, some x)

/-- The weekend weekdays a single rule appends. -/
def ruleWeekdays : Holiday → List Weekday
  | .WeekDay w => [w]
  | _ => []

theorem applyRule_ok_indep {start stop : Int} {st st' : Calendar} {r : Holiday}
    (h : applyRule start stop st r = .ok st') (st2 : Calendar) :
    ∃ st2', applyRule start stop st2 r = .ok st2' := by
  cases r with
  | WeekDay w => exact ⟨_, rfl⟩
  | SingularDay d => exact ⟨_, rfl⟩
  | MovableYearlyDay month day first last half_check =>
    exact applyYears_ok_indep h st2
  | EasterOffset offset first last =>
    exact applyYears_ok_indep h st2
  | MonthWeekday month weekday nth first last half_check =>
    exact applyYears_ok_indep h st2

theorem applyRule_mem {start stop : Int} {st st' : Calendar} {r : Holiday}
    (h : applyRule start stop st r = .ok st') :
    (∀ x, x ∈ st'.holidays ↔ x ∈ st.holidays ∨ ruleHolidayContrib start stop r x) ∧
    (∀ x, x ∈ st'.halfdays ↔ x ∈ st.halfdays ∨ ruleHalfdayContrib start stop r x) ∧
    st'.weekdays = st.weekdays ++ ruleWeekdays r := by
  cases r with
  | WeekDay w =>
    cases h
    simp [ruleHolidayContrib, ruleHalfdayContrib, ruleWeekdays]
  | SingularDay d =>
    simp only [applyRule] at h
    by_cases hc : start ≤ d.year ∧ d.year ≤ stop
    · rw [if_pos hc] at h
      cases h
      refine ⟨?_, ?_, ?_⟩
      · intro x
        simp only [mem_insertD, ruleHolidayContrib]
        tauto
      · intro x
        simp [ruleHalfdayContrib]
      · simp [ruleWeekdays]
    · rw [if_neg hc] at h
      cases h
      refine ⟨?_, ?_, ?_⟩
      · intro x
        simp only [ruleHolidayContrib]
        tauto
      · intro x
        simp [ruleHalfdayContrib]
      · simp [ruleWeekdays]
  | MovableYearlyDay month day first last half_check =>
    obtain ⟨hh, hf, hw⟩ := applyYears_mem h
    refine ⟨?_, ?_, ?_⟩
    · intro x
      rw [hh x]
      rfl
    · intro x
      rw [hf x]
      rfl
    · rw [hw]
      simp [ruleWeekdays]
  | EasterOffset offset first last =>
    obtain ⟨hh, hf, hw⟩ := applyYears_mem h
    refine ⟨?_, ?_, ?_⟩
    · intro x
      rw [hh x]
      rfl
    · intro x
      rw [hf x]
      rfl
    · rw [hw]
      simp [ruleWeekdays]
  | MonthWeekday month weekday nth first last half_check =>
    obtain ⟨hh, hf, hw⟩ := applyYears_mem h
    refine ⟨?_, ?_, ?_⟩
    · intro x
      rw [hh x]
      rfl
    · intro x
      rw [hf x]
      rfl
    · rw [hw]
      simp [ruleWeekdays]

/-- The holidays a rule list contributes over the build range. -/
def rulesHolidayContrib (start stop : Int) (rs : List Holiday) (x : Date) : Prop :=
  ∃ r ∈ rs, ruleHolidayContrib start stop r x

/-- The half-days a rule list contributes over the build range. -/
def rulesHalfdayContrib (start stop : Int) (rs : List Holiday) (x : Date) : Prop :=
  ∃ r ∈ rs, ruleHalfdayContrib start stop r x

/-- The weekend weekdays a rule list appends, in order. -/
def rulesWeekdays (rs : List Holiday) : List Weekday :=
  rs.filterMap (fun r => match r with | .WeekDay w => some w | _ => none)

theorem rulesWeekdays_cons (r : Holiday) (rs : List Holiday) :
    rulesWeekdays (r :: rs) = ruleWeekdays r ++ rulesWeekdays rs := by
  cases r <;> simp [rulesWeekdays, ruleWeekdays, List.filterMap_cons]

theorem applyRules_ok_indep {start stop : Int} {rs : List Holiday} {st st' : Calendar}
    (h : applyRules start stop rs st = .ok st') (st2 : Calendar) :
    ∃ st2', applyRules start stop rs st2 = .ok st2' := by
  induction rs generalizing st st2 with
  | nil => exact ⟨st2, rfl⟩
  | cons r rs ih =>
    unfold applyRules at h ⊢
    cases hr : applyRule start stop st r with
    | error e => rw [hr] at h; exact absurd h (by simp)
    | ok st1 =>
      rw [hr] at h
      obtain ⟨st2', hst2'⟩ := applyRule_ok_indep hr st2
      rw [hst2']
      exact ih h st2'

theorem applyRules_mem {start stop : Int} {rs : List Holiday} {st st' : Calendar}
    (h : applyRules start stop rs st = .ok st') :
    (∀ x, x ∈ st'.holidays ↔ x ∈ st.holidays ∨ rulesHolidayContrib start stop rs x) ∧
    (∀ x, x ∈ st'.halfdays ↔ x ∈ st.halfdays ∨ rulesHalfdayContrib start stop rs x) ∧
    st'.weekdays = st.weekdays ++ rulesWeekdays rs := by
  induction rs generalizing st with
  | nil =>
    unfold applyRules at h
    cases h
    simp [rulesHolidayContrib, rulesHalfdayContrib, rulesWeekdays]
  | cons r rs ih =>
    unfold applyRules at h
    cases hr : applyRule start stop st r with
    | error e => rw [hr] at h; exact absurd h (by simp)
    | ok st1 =>
      rw [hr] at h
      obtain ⟨rh, rf, rw'⟩ := applyRule_mem hr
      obtain ⟨ihh, ihf, ihw⟩ := ih h
      refine ⟨?_, ?_, ?_⟩
      · intro x
        rw [ihh x, rh x]
        unfold rulesHolidayContrib
        rw [List.exists_mem_cons_iff]
        tauto
      · intro x
        rw [ihf x, rf x]
        unfold rulesHalfdayContrib
        rw [List.exists_mem_cons_iff]
        tauto
      · rw [ihw, rw', rulesWeekdays_cons, List.append_assoc]

theorem applyRules_append (start stop : Int) (l1 l2 : List Holiday) (st : Calendar) :
    applyRules start stop (l1 ++ l2) st =
      match applyRules start stop l1 st with
      | .error e => .error e
      | .ok st1 => applyRules start stop l2 st1 := by
  induction l1 generalizing st with
  | nil => rfl
  | cons r rs ih =>
    cases hr : applyRule start stop st r with
    | error e =>
      simp only [List.cons_append, applyRules, hr]
    | ok st1 =>
      simp only [List.cons_append, applyRules, hr]
      exact ih st1

theorem fromYmd?_eq_some {y : Int} {m d : Nat} {c : Date}
    (h : fromYmd? y m d = some c) : c = ⟨y, m, d⟩ ∧ c.Valid := by
  unfold fromYmd? at h
  by_cases hv : (Date.mk y m d).Valid
  · rw [if_pos hv] at h
    cases h
    exact ⟨rfl, hv⟩
  · rw [if_neg hv] at h
    exact absurd h (by simp)

theorem fromYmd?_valid_eq {y : Int} {m d : Nat} (hv : (Date.mk y m d).Valid) :
    fromYmd? y m d = some ⟨y, m, d⟩ := by
  unfold fromYmd?
  rw [if_pos hv]

theorem accounting_period_end_eq {d : Date} (h : d.Valid) :
    accounting_period_end d =
      (⟨d.year, d.month, daysInMonth d.year d.month⟩, ⟨d.year, 12, 31⟩) := by
  obtain ⟨h1, h2, h3, h4⟩ := h
  unfold accounting_period_end
  by_cases hm : d.month < 12
  · have hv : (Date.mk d.year (d.month + 1) 1).Valid := by
      refine ⟨?_, ?_, ?_, ?_⟩
      · show 1 ≤ d.month + 1
        omega
      · show d.month + 1 ≤ 12
        omega
      · show 1 ≤ 1
        omega
      · show 1 ≤ daysInMonth d.year (d.month + 1)
        exact monthLen_pos (isLeap d.year) (d.month + 1) (by omega) (by omega)
    rw [fromYmd?_valid_eq hv]
    show (predD ⟨d.year, d.month + 1, 1⟩, (⟨d.year, 12, 31⟩ : Date)) = _
    unfold predD
    simp only
    rw [if_neg (by omega), if_pos (by omega)]
    simp
  · have hm12 : d.month = 12 := by omega
    have hv : ¬ (Date.mk d.year (d.month + 1) 1).Valid := by
      intro hv
      have := hv.2.1
      simp only [hm12] at this
      omega
    have hnone : fromYmd? d.year (d.month + 1) 1 = none := by
      unfold fromYmd?
      rw [if_neg hv]
    rw [hnone]
    show (predD ⟨d.year + 1, 1, 1⟩, (⟨d.year, 12, 31⟩ : Date)) = _
    unfold predD
    simp only
    rw [if_neg (by omega), if_neg (by omega)]
    have h31 : daysInMonth d.year 12 = 31 := monthLen_12_numeric (isLeap d.year)
    rw [hm12, h31]
    simp

theorem weekendShift_valid {d : Date} (h : d.Valid) : (weekendShift d).2.Valid := by
  unfold weekendShift
  cases hw : dayOfWeek d
  case sat => exact valid_predD h
  case sun => exact valid_succD h
  all_goals exact h

theorem weekendShift_not_weekend {d : Date} (h : d.Valid) :
    dayOfWeek (weekendShift d).2 ≠ .sat ∧ dayOfWeek (weekendShift d).2 ≠ .sun := by
  unfold weekendShift
  cases hw : dayOfWeek d <;> rw [dayOfWeek_eq_iff] at hw
  case sat =>
    have hp : toRd (predD d) = toRd d - 1 := toRd_predD h
    constructor <;> intro hc <;> rw [dayOfWeek_eq_iff, hp] at hc <;>
      simp [wdIndex] at hw hc <;> omega
  case sun =>
    have hp : toRd (succD d) = toRd d + 1 := toRd_succD h
    constructor <;> intro hc <;> rw [dayOfWeek_eq_iff, hp] at hc <;>
      simp [wdIndex] at hw hc <;> omega
  all_goals
    constructor <;> intro hc <;> rw [dayOfWeek_eq_iff] at hc <;>
      simp [wdIndex] at hw hc <;> omega

/-- A date is the last day of its month. -/
def isLastDayOfMonth (d : Date) : Prop := d.day = daysInMonth d.year d.month

/-- A date is the last day of its year (December 31). -/
def isLastDayOfYear (d : Date) : Prop := d.month = 12 ∧ d.day = 31

instance (d : Date) : Decidable (isLastDayOfMonth d) := by
  unfold isLastDayOfMonth; infer_instance

instance (d : Date) : Decidable (isLastDayOfYear d) := by
  unfold isLastDayOfYear; infer_instance

theorem eq_period_end_iff {d : Date} (h : d.Valid) :
    (d = (accounting_period_end d).1 ↔ isLastDayOfMonth d) ∧
    (d = (accounting_period_end d).2 ↔ isLastDayOfYear d) := by
  rw [accounting_period_end_eq h]
  constructor
  · constructor
    · intro he
      show d.day = daysInMonth d.year d.month
      rw [he]
    · intro he
      cases d
      simp only [isLastDayOfMonth] at he
      simp_all
  · constructor
    · intro he
      refine ⟨?_, ?_⟩ <;> rw [he]
    · intro he
      obtain ⟨e1, e2⟩ := he
      cases d
      simp_all

theorem weekendShift_false {d : Date} (h : (weekendShift d).1 = false) :
    (weekendShift d).2 = d := by
  unfold weekendShift at h ⊢
  cases hw : dayOfWeek d <;> first | rfl | (rw [hw] at h; simp at h)

/-- C1: for a `MovableYearlyDay` (FixedYearlyDate) rule and a year whose
candidate `(year, month, day)` constructs, the weekend shift (Saturday moves
back to Friday, Sunday forward to Monday, anything else is kept) never yields
a Saturday or Sunday; the year's loop body inserts the shifted date as a full
holiday iff it equals neither the last day of its month nor the last day of
its year, and inserts nothing at all when it equals either; and at the rule
level the holiday set accumulates exactly these per-year insertions over the
clamped year range. -/
theorem movableYearlyDay_shift_and_boundary
    (month dayN : Nat) (half_check : Option HalfCheck) (year : Int) (c : Date)
    (hc : fromYmd? year month dayN = some c) :
    dayOfWeek (weekendShift c).2 ≠ .sat ∧
    dayOfWeek (weekendShift c).2 ≠ .sun ∧
    (¬ isLastDayOfMonth (weekendShift c).2 ∧ ¬ isLastDayOfYear (weekendShift c).2 →
      ∃ hf, movableYearStep month dayN half_check year =
        .ok (some (weekendShift c).2, hf)) ∧
    ((isLastDayOfMonth (weekendShift c).2 ∨ isLastDayOfYear (weekendShift c).2) →
      movableYearStep month dayN half_check year = .ok (none, none)) ∧
    (∀ first last start stop st st',
      applyRule start stop st (.MovableYearlyDay month dayN first last half_check) =
        .ok st' →
      ∀ x, x ∈ st'.holidays ↔ x ∈ st.holidays ∨
        ∃ y ∈ yearRange (calc_first_and_last start stop first last).1
            (calc_first_and_last start stop first last).2,
          ∃ hf, movableYearStep month dayN half_check y = .ok (some x, hf)) := by
  obtain ⟨hceq, hcv⟩ := fromYmd?_eq_some hc
  have hsv : (weekendShift c).2.Valid := weekendShift_valid hcv
  have hnw := weekendShift_not_weekend hcv
  have hpe := eq_period_end_iff hsv
  refine ⟨hnw.1, hnw.2, ?_, ?_, ?_⟩
  · rintro ⟨hb1, hb2⟩
    simp only [movableYearStep, hc]
    rw [if_pos ⟨fun he => hb1 (hpe.1.mp he), fun he => hb2 (hpe.2.mp he)⟩]
    exact ⟨_, rfl⟩
  · intro hor
    simp only [movableYearStep, hc]
    rw [if_neg ?_]
    · rintro ⟨k1, k2⟩
      rcases hor with hbm | hby
      · exact k1 (hpe.1.mpr hbm)
      · exact k2 (hpe.2.mpr hby)
  · intro first last start stop st st' happ x
    exact (applyRule_mem happ).1 x

theorem c1_witness : ∃ hf,
    movableYearStep 7 4 (some HalfCheck.Before) 2021 =
      .ok (some ⟨2021, 7, 5⟩, hf) := by
  have h := movableYearlyDay_shift_and_boundary 7 4 (some HalfCheck.Before) 2021
    ⟨2021, 7, 4⟩ (by decide)
  have h3 := h.2.2.1 (by decide)
  have he : (weekendShift (⟨2021, 7, 4⟩ : Date)).2 = ⟨2021, 7, 5⟩ := by decide
  rw [he] at h3
  exact h3

/-- C2: for a `MovableYearlyDay` rule with a half-day adjacency and a
non-discarded year: when the candidate was weekend-shifted no half-day is
recorded; otherwise `Before` records the day before the holiday unless the
holiday falls on Monday, and `After` records the day after unless the holiday
falls on Friday (in which cases nothing is recorded). -/
theorem movableYearlyDay_halfday
    (month dayN : Nat) (half_check : Option HalfCheck) (year : Int) (c : Date)
    (hc : fromYmd? year month dayN = some c)
    (hkeep : ¬ isLastDayOfMonth (weekendShift c).2 ∧
      ¬ isLastDayOfYear (weekendShift c).2) :
    ((weekendShift c).1 = true →
      movableYearStep month dayN half_check year =
        .ok (some (weekendShift c).2, none)) ∧
    ((weekendShift c).1 = false → half_check = some .Before → dayOfWeek c = .mon →
      movableYearStep month dayN half_check year = .ok (some c, none)) ∧
    ((weekendShift c).1 = false → half_check = some .Before → dayOfWeek c ≠ .mon →
      movableYearStep month dayN half_check year = .ok (some c, some (predD c))) ∧
    ((weekendShift c).1 = false → half_check = some .After → dayOfWeek c = .fri →
      movableYearStep month dayN half_check year = .ok (some c, none)) ∧
    ((weekendShift c).1 = false → half_check = some .After → dayOfWeek c ≠ .fri →
      movableYearStep month dayN half_check year = .ok (some c, some (succD c))) := by
  obtain ⟨hceq, hcv⟩ := fromYmd?_eq_some hc
  have hsv : (weekendShift c).2.Valid := weekendShift_valid hcv
  have hpe := eq_period_end_iff hsv
  have hcond : (weekendShift c).2 ≠ (accounting_period_end (weekendShift c).2).1 ∧
      (weekendShift c).2 ≠ (accounting_period_end (weekendShift c).2).2 :=
    ⟨fun he => hkeep.1 (hpe.1.mp he), fun he => hkeep.2 (hpe.2.mp he)⟩
  refine ⟨?_, ?_, ?_, ?_, ?_⟩
  · intro hmv
    simp only [movableYearStep, hc]
    rw [if_pos hcond, hmv]
    simp
  · intro hmv hhc hmon
    have he2 := weekendShift_false hmv
    simp only [movableYearStep, hc]
    rw [if_pos hcond, hmv, hhc]
    simp only [do_halfday_check, he2]
    rw [if_pos hmon]
    simp
  · intro hmv hhc hmon
    have he2 := weekendShift_false hmv
    simp only [movableYearStep, hc]
    rw [if_pos hcond, hmv, hhc]
    simp only [do_halfday_check, he2]
    rw [if_neg hmon]
    simp
  · intro hmv hhc hfri
    have he2 := weekendShift_false hmv
    simp only [movableYearStep, hc]
    rw [if_pos hcond, hmv, hhc]
    simp only [do_halfday_check, he2]
    rw [if_pos hfri]
    simp
  · intro hmv hhc hfri
    have he2 := weekendShift_false hmv
    simp only [movableYearStep, hc]
    rw [if_pos hcond, hmv, hhc]
    simp only [do_halfday_check, he2]
    rw [if_neg hfri]
    simp

theorem c2_witness :
    movableYearStep 7 4 (some HalfCheck.Before) 2022 =
      .ok (some ⟨2022, 7, 4⟩, none) := by
  have h := movableYearlyDay_halfday 7 4 (some HalfCheck.Before) 2022
    ⟨2022, 7, 4⟩ (by decide) (by decide)
  exact h.2.1 (by decide) rfl (by decide)

theorem movableYearStep_error {y : Int} {month day : Nat}
    {half_check : Option HalfCheck} (h : fromYmd? y month day = none) :
    movableYearStep month day half_check y = .error .invalidDate := by
  simp only [movableYearStep, h]

theorem applyRule_error_of_step {start stop : Int} {r : Holiday}
    (h : ∃ y ∈ ruleYears start stop r, ruleStep r y = .error .invalidDate)
    (st : Calendar) : ∃ e, applyRule start stop st r = .error e := by
  cases r with
  | WeekDay w =>
    obtain ⟨y, hy, _⟩ := h
    exact absurd hy (by simp [ruleYears])
  | SingularDay d =>
    obtain ⟨y, hy, _⟩ := h
    exact absurd hy (by simp [ruleYears])
  | MovableYearlyDay month day first last half_check =>
    obtain ⟨y, hy, hstep⟩ := h
    exact applyYears_error_of_step ⟨y, hy, BuildErr.invalidDate, hstep⟩ st
  | EasterOffset offset first last =>
    obtain ⟨y, hy, hstep⟩ := h
    exact applyYears_error_of_step ⟨y, hy, BuildErr.invalidDate, hstep⟩ st
  | MonthWeekday month weekday nth first last half_check =>
    obtain ⟨y, hy, hstep⟩ := h
    exact applyYears_error_of_step ⟨y, hy, BuildErr.invalidDate, hstep⟩ st

/-- C3 (amended): if any rule's year loop hits an invalid date construction
for some year in its clamped range, that rule is not silently skipped: the
whole build surfaces a construction failure (the Rust code panics on the
`from_ymd` unwrap; `ruleStep`/`ruleYears` are, per variant, exactly the
builder's loop body and clamped year list, and the only error a step can
produce is a date-construction failure). The failure itself, however,
carries no identification of the offending rule or year — see the
accompanying counterexample. -/
theorem builder_fails_on_invalid_date
    (pre post : List Holiday) (r : Holiday) (start stop : Int)
    (h : ∃ y ∈ ruleYears start stop r, ruleStep r y = .error .invalidDate) :
    ∃ e, calc_calendar (pre ++ r :: post) start stop = .error e := by
  unfold calc_calendar
  rw [applyRules_append]
  cases hpre : applyRules start stop pre ⟨[], [], []⟩ with
  | error e => exact ⟨e, rfl⟩
  | ok st1 =>
    obtain ⟨e, he⟩ := applyRule_error_of_step h st1
    refine ⟨e, ?_⟩
    show applyRules start stop (r :: post) st1 = .error e
    simp only [applyRules, he]

theorem c3_witness :
    (∃ e, calc_calendar [Holiday.MonthWeekday 13 .mon .First none none none]
      2021 2021 = .error e) ∧
    (∃ e, calc_calendar [Holiday.MovableYearlyDay 13 1 none none none]
      2021 2021 = .error e) := by
  constructor
  · exact builder_fails_on_invalid_date [] []
      (Holiday.MonthWeekday 13 .mon .First none none none) 2021 2021
      ⟨2021, by decide, rfl⟩
  · exact builder_fails_on_invalid_date [] []
      (Holiday.MovableYearlyDay 13 1 none none none) 2021 2021
      ⟨2021, by decide, rfl⟩

/-- C3 counterexample to "the failure identifies the offending rule and
year": two builds that fail on different rules and different years produce
literally identical failures, so the failure identifies neither. -/
theorem c3_counterexample :
    calc_calendar [Holiday.MovableYearlyDay 13 1 none none none] 2021 2021 =
      calc_calendar [Holiday.MovableYearlyDay 2 30 none none none] 2025 2025 ∧
    calc_calendar [Holiday.MovableYearlyDay 13 1 none none none] 2021 2021 =
      Except.error BuildErr.invalidDate ∧
    Holiday.MovableYearlyDay 13 1 none none none ≠
      Holiday.MovableYearlyDay 2 30 none none none := by
  refine ⟨rfl, rfl, by decide⟩

theorem weekendScan_iff (w : Weekday) : ∀ l : List Weekday,
    weekendScan w l = true ↔ w ∈ l
  | [] => by simp [weekendScan]
  | x :: xs => by
    unfold weekendScan
    by_cases h : w = x
    · rw [if_pos h]
      simp [h]
    · rw [if_neg h]
      rw [weekendScan_iff w xs]
      simp [List.mem_cons, h]

/-- C7: `is_weekend` holds exactly when the date's weekday is in the
weekend-weekday set, `is_business_day` is the conjunction of not-weekend and
not-holiday, and consequently a half-day that is neither a weekend day nor a
full holiday is still a business day. -/
theorem business_day_characterization (cal : Calendar) (d : Date) :
    (cal.is_weekend d = true ↔ dayOfWeek d ∈ cal.weekdays) ∧
    (cal.is_business_day d = (!cal.is_weekend d && !cal.is_holiday d)) ∧
    (cal.is_half_holiday d = true → cal.is_weekend d = false →
      cal.is_holiday d = false → cal.is_business_day d = true) := by
  refine ⟨weekendScan_iff _ _, rfl, ?_⟩
  intro _ hw hh
  unfold Calendar.is_business_day
  rw [hw, hh]
  rfl

/-- The calendar built from the single Thanksgiving rule (4th Thursday of
November, half-day After) over 2021. -/
def thanksgivingCal : Calendar :=
  match calc_calendar [.MonthWeekday 11 .thu .Fourth none none (some .After)]
      2021 2021 with
  | .ok c => c
  | .error _ => ⟨[], [], []⟩

theorem c7_witness : thanksgivingCal.is_business_day ⟨2021, 11, 26⟩ = true := by
  have h := business_day_characterization thanksgivingCal ⟨2021, 11, 26⟩
  exact h.2.2 (by decide) (by decide) (by decide)

theorem yearRange_nil {a b : Int} (h : b < a) : yearRange a b = [] := by
  unfold yearRange
  have h0 : (b + 1 - a).toNat = 0 := by omega
  rw [h0]
  rfl

/-- C8: a rule's `first`/`last` bounds clamp its years to the intersection
with the build range (lower bound `max start first`, upper bound
`min stop last`; empty intersection yields no years and an empty calendar),
a rule with `first = 2022` iterates no year before 2022, and a
`SingularDay` rule inserts its date iff its year lies within the build
range. -/
theorem clamping_and_singular :
    (∀ start stop fy ly y,
      y ∈ yearRange (calc_first_and_last start stop (some fy) (some ly)).1
          (calc_first_and_last start stop (some fy) (some ly)).2 ↔
        max start fy ≤ y ∧ y ≤ min stop ly) ∧
    (∀ start stop ly y,
      y ∈ yearRange (calc_first_and_last start stop (some 2022) ly).1
          (calc_first_and_last start stop (some 2022) ly).2 → 2022 ≤ y) ∧
    (∀ month day half_check start stop, stop < 2022 →
      calc_calendar [Holiday.MovableYearlyDay month day (some 2022) none half_check]
        start stop = .ok ⟨[], [], []⟩) ∧
    (∀ dd start stop, ∃ c,
      calc_calendar [Holiday.SingularDay dd] start stop = .ok c ∧
      ∀ x, x ∈ c.holidays ↔ (x = dd ∧ start ≤ dd.year ∧ dd.year ≤ stop)) := by
  refine ⟨?_, ?_, ?_, ?_⟩
  · intro start stop fy ly y
    exact mem_yearRange (max start fy) (min stop ly) y
  · intro start stop ly y hmem
    have h1 : max start 2022 ≤ y ∧
        y ≤ (calc_first_and_last start stop (some 2022) ly).2 :=
      (mem_yearRange _ _ y).mp hmem
    have h2 : max start 2022 ≤ y := h1.1
    omega
  · intro month day half_check start stop hlt
    have hnil : yearRange
        (calc_first_and_last start stop (some 2022) none).1
        (calc_first_and_last start stop (some 2022) none).2 = [] :=
      yearRange_nil (by show stop < max start 2022; omega)
    show applyRules start stop [Holiday.MovableYearlyDay month day (some 2022) none half_check]
      ⟨[], [], []⟩ = .ok ⟨[], [], []⟩
    simp only [applyRules, applyRule]
    rw [hnil]
    rfl
  · intro dd start stop
    have h1 : applyRule start stop ⟨[], [], []⟩ (.SingularDay dd) =
        .ok (if start ≤ dd.year ∧ dd.year ≤ stop
             then ⟨insertD [] dd, [], []⟩ else ⟨[], [], []⟩) := rfl
    refine ⟨if start ≤ dd.year ∧ dd.year ≤ stop
            then ⟨insertD [] dd, [], []⟩ else ⟨[], [], []⟩, ?_, ?_⟩
    · show applyRules start stop [Holiday.SingularDay dd] ⟨[], [], []⟩ = _
      simp only [applyRules, h1]
    · intro x
      by_cases hcond : start ≤ dd.year ∧ dd.year ≤ stop
      · rw [if_pos hcond]
        show x ∈ insertD [] dd ↔ _
        rw [mem_insertD]
        simp
        tauto
      · rw [if_neg hcond]
        show x ∈ ([] : List Date) ↔ _
        constructor
        · intro hx
          exact absurd hx (by simp)
        · rintro ⟨_, hA, hB⟩
          exact absurd ⟨hA, hB⟩ hcond

theorem c8_witness :
    (2023 : Int) ∈ yearRange
      (calc_first_and_last 2019 2025 (some 2022) (some 2030)).1
      (calc_first_and_last 2019 2025 (some 2022) (some 2030)).2 :=
  (clamping_and_singular.1 2019 2025 2022 2030 2023).mpr (by decide)

theorem easterT_bounds (y : Int) : 107 ≤ easterT y ∧ easterT y ≤ 149 := by
  constructor <;>
    (unfold easterT; lift_lets; extract_lets a b c d e f g h i k l m; omega)

theorem easterRaw_valid (y : Int) :
    (Date.mk y (easterRaw y).1 (easterRaw y).2).Valid := by
  obtain ⟨hb1, hb2⟩ := easterT_bounds y
  unfold easterRaw
  refine ⟨?_, ?_, ?_, ?_⟩
  · show 1 ≤ (easterT y / 31).toNat
    omega
  · show (easterT y / 31).toNat ≤ 12
    omega
  · show 1 ≤ (easterT y % 31 + 1).toNat
    omega
  · show (easterT y % 31 + 1).toNat ≤ daysInMonth y (easterT y / 31).toNat
    have hm : easterT y / 31 = 3 ∨ easterT y / 31 = 4 := by omega
    rcases hm with hm | hm
    · have h3 : (easterT y / 31).toNat = 3 := by omega
      rw [h3]
      have : daysInMonth y 3 = 31 := by
        unfold daysInMonth
        cases isLeap y <;> rfl
      rw [this]
      omega
    · have h4 : (easterT y / 31).toNat = 4 := by omega
      rw [h4]
      have : daysInMonth y 4 = 30 := by
        unfold daysInMonth
        cases isLeap y <;> rfl
      rw [this]
      omega

theorem easterYearStep_eq (offset y : Int) :
    easterYearStep offset y =
      .ok (some (addDays ⟨y, (easterRaw y).1, (easterRaw y).2⟩ offset), none) := by
  unfold easterYearStep
  rw [fromYmd?_valid_eq (easterRaw_valid y)]

/-- The calendar built from the single Good Friday rule (Easter offset −2)
over 2021–2022. -/
def goodFridayCal : Calendar :=
  match calc_calendar [.EasterOffset (-2) none none] 2021 2022 with
  | .ok c => c
  | .error _ => ⟨[], [], []⟩

/-- C6: an `EasterOffset` (EasterRelative) rule always builds, contributes for
each clamped year exactly the date "Easter Sunday (standard Gregorian
computus) plus `offset` days" as a full holiday, and contributes no half-days
and no weekend weekdays; with offset −2 over 2021–2022, April 2, 2021 and
April 15, 2022 are non-business days. -/
theorem easterOffset_characterization :
    (∀ (offset : Int) (first last : Option Int) (start stop : Int), ∃ c,
      calc_calendar [Holiday.EasterOffset offset first last] start stop = .ok c ∧
      c.halfdays = [] ∧ c.weekdays = [] ∧
      (∀ x, x ∈ c.holidays ↔
        ∃ y ∈ yearRange (calc_first_and_last start stop first last).1
            (calc_first_and_last start stop first last).2,
          x = addDays ⟨y, (easterRaw y).1, (easterRaw y).2⟩ offset)) ∧
    (calc_calendar [Holiday.EasterOffset (-2) none none] 2021 2022 =
        .ok goodFridayCal ∧
      goodFridayCal.is_business_day ⟨2021, 4, 2⟩ = false ∧
      goodFridayCal.is_business_day ⟨2022, 4, 15⟩ = false) := by
  constructor
  · intro offset first last start stop
    obtain ⟨c, hc⟩ := @applyYears_ok_of_steps (easterYearStep offset)
      (yearRange (calc_first_and_last start stop first last).1
        (calc_first_and_last start stop first last).2)
      (fun y _ => ⟨_, easterYearStep_eq offset y⟩) ⟨[], [], []⟩
    obtain ⟨hh, hf, hw⟩ := applyYears_mem hc
    have hrule : applyRule start stop ⟨[], [], []⟩
        (.EasterOffset offset first last) = .ok c := hc
    refine ⟨c, ?_, ?_, ?_, ?_⟩
    · show applyRules start stop [Holiday.EasterOffset offset first last]
        ⟨[], [], []⟩ = .ok c
      simp only [applyRules, hrule]
    · rw [List.eq_nil_iff_forall_not_mem]
      intro x hx
      rw [hf x] at hx
      rcases hx with hx | ⟨y, _, hd, hstep⟩
      · exact absurd hx (by simp)
      · rw [easterYearStep_eq offset y] at hstep
        cases hstep
    · rw [hw]
    · intro x
      rw [hh x]
      constructor
      · rintro (hx | ⟨y, hy, hfd, hstep⟩)
        · exact absurd hx (by simp)
        · rw [easterYearStep_eq offset y] at hstep
          cases hstep
          exact ⟨y, hy, rfl⟩
      · rintro ⟨y, hy, rfl⟩
        exact Or.inr ⟨y, hy, none, easterYearStep_eq offset y⟩
  · refine ⟨rfl, by decide, by decide⟩

theorem c6_witness :
    ∃ c, calc_calendar [Holiday.EasterOffset (-2) none none] 2021 2021 =
        .ok c ∧ (⟨2021, 4, 2⟩ : Date) ∈ c.holidays := by
  obtain ⟨c, h1, _, _, h4⟩ :=
    easterOffset_characterization.1 (-2) none none 2021 2021
  exact ⟨c, h1, (h4 _).mpr ⟨2021, by decide, by decide⟩⟩

theorem succIter_within_month {d : Date} (hv : d.Valid) {k : Nat}
    (hk : d.day + k ≤ daysInMonth d.year d.month) :
    succIter d k = ⟨d.year, d.month, d.day + k⟩ := by
  induction k generalizing d with
  | zero =>
    show d = _
    cases d
    simp
  | succ k ih =>
    obtain ⟨h1, h2, h3, h4⟩ := hv
    have hlt : d.day < daysInMonth d.year d.month := by omega
    have hsd : succD d = ⟨d.year, d.month, d.day + 1⟩ := by
      unfold succD
      rw [if_pos hlt]
    show succIter (succD d) k = _
    rw [hsd]
    have hv' : (Date.mk d.year d.month (d.day + 1)).Valid :=
      ⟨h1, h2, by show 1 ≤ d.day + 1; omega,
        by show d.day + 1 ≤ daysInMonth d.year d.month; omega⟩
    have := ih hv' (by show d.day + 1 + k ≤ daysInMonth d.year d.month; omega)
    rw [this]
    show (Date.mk d.year d.month (d.day + 1 + k)) = _
    congr 1
    omega

theorem predIter_within_month {d : Date} (hv : d.Valid) {k : Nat}
    (hk : k < d.day) :
    predIter d k = ⟨d.year, d.month, d.day - k⟩ := by
  induction k generalizing d with
  | zero =>
    show d = _
    cases d
    simp
  | succ k ih =>
    obtain ⟨h1, h2, h3, h4⟩ := hv
    have hlt : 1 < d.day := by omega
    have hpd : predD d = ⟨d.year, d.month, d.day - 1⟩ := by
      unfold predD
      rw [if_pos hlt]
    show predIter (predD d) k = _
    rw [hpd]
    have hv' : (Date.mk d.year d.month (d.day - 1)).Valid :=
      ⟨h1, h2, by show 1 ≤ d.day - 1; omega,
        by show d.day - 1 ≤ daysInMonth d.year d.month; omega⟩
    have := ih hv' (by show k < d.day - 1; omega)
    rw [this]
    show (Date.mk d.year d.month (d.day - 1 - k)) = _
    congr 1
    omega

theorem seekWeekday_fwd {w : Weekday} : ∀ {fuel k : Nat} {d : Date},
    k < fuel → dayOfWeek (succIter d k) = w →
    (∀ j < k, dayOfWeek (succIter d j) ≠ w) →
    seekWeekday false w fuel d = succIter d k := by
  intro fuel
  induction fuel with
  | zero => intro k d hk; omega
  | succ fuel ih =>
    intro k d hk hmatch hmin
    unfold seekWeekday
    by_cases hd : dayOfWeek d = w
    · rw [if_pos hd]
      cases k with
      | zero => rfl
      | succ k' => exact absurd hd (hmin 0 (by omega))
    · rw [if_neg hd]
      cases k with
      | zero => exact absurd hmatch hd
      | succ k' =>
        show seekWeekday false w fuel (succD d) = succIter (succD d) k'
        exact ih (by omega) hmatch (fun j hj => hmin (j + 1) (by omega))

theorem seekWeekday_bwd {w : Weekday} : ∀ {fuel k : Nat} {d : Date},
    k < fuel → dayOfWeek (predIter d k) = w →
    (∀ j < k, dayOfWeek (predIter d j) ≠ w) →
    seekWeekday true w fuel d = predIter d k := by
  intro fuel
  induction fuel with
  | zero => intro k d hk; omega
  | succ fuel ih =>
    intro k d hk hmatch hmin
    unfold seekWeekday
    by_cases hd : dayOfWeek d = w
    · rw [if_pos hd]
      cases k with
      | zero => rfl
      | succ k' => exact absurd hd (hmin 0 (by omega))
    · rw [if_neg hd]
      cases k with
      | zero => exact absurd hmatch hd
      | succ k' =>
        show seekWeekday true w fuel (predD d) = predIter (predD d) k'
        exact ih (by omega) hmatch (fun j hj => hmin (j + 1) (by omega))

theorem wdIndex_bounds (w : Weekday) : 0 ≤ wdIndex w ∧ wdIndex w < 7 := by
  cases w <;> exact (by decide)

theorem exists_seek_fwd {d : Date} (hv : d.Valid) (w : Weekday) :
    ∃ k, k ≤ 6 ∧ dayOfWeek (succIter d k) = w := by
  have hb := wdIndex_bounds w
  refine ⟨((wdIndex w - toRd d % 7 + 7) % 7).toNat, by omega, ?_⟩
  rw [dayOfWeek_eq_iff, toRd_succIter hv]
  omega

theorem exists_seek_bwd {d : Date} (hv : d.Valid) (w : Weekday) :
    ∃ k, k ≤ 6 ∧ dayOfWeek (predIter d k) = w := by
  have hb := wdIndex_bounds w
  refine ⟨((toRd d % 7 - wdIndex w + 7) % 7).toNat, by omega, ?_⟩
  rw [dayOfWeek_eq_iff, toRd_predIter hv]
  omega

theorem seek_fwd_result {d : Date} (hv : d.Valid) (w : Weekday) :
    ∃ k, k ≤ 6 ∧ seekWeekday false w 7 d = succIter d k ∧
      dayOfWeek (succIter d k) = w := by
  obtain ⟨k1, hk1, hw1⟩ := exists_seek_fwd hv w
  have hex : ∃ k, dayOfWeek (succIter d k) = w := ⟨k1, hw1⟩
  refine ⟨Nat.find hex, ?_, ?_, Nat.find_spec hex⟩
  · have := Nat.find_min' hex hw1
    omega
  · exact seekWeekday_fwd (by have := Nat.find_min' hex hw1; omega)
      (Nat.find_spec hex) (fun j hj => Nat.find_min hex hj)

theorem seek_bwd_result {d : Date} (hv : d.Valid) (w : Weekday) :
    ∃ k, k ≤ 6 ∧ seekWeekday true w 7 d = predIter d k ∧
      dayOfWeek (predIter d k) = w := by
  obtain ⟨k1, hk1, hw1⟩ := exists_seek_bwd hv w
  have hex : ∃ k, dayOfWeek (predIter d k) = w := ⟨k1, hw1⟩
  refine ⟨Nat.find hex, ?_, ?_, Nat.find_spec hex⟩
  · have := Nat.find_min' hex hw1
    omega
  · exact seekWeekday_bwd (by have := Nat.find_min' hex hw1; omega)
      (Nat.find_spec hex) (fun j hj => Nat.find_min hex hj)

theorem seek_fwd_in_month {year : Int} {month s : Nat}
    (hv : (Date.mk year month s).Valid)
    (hs : s + 6 ≤ daysInMonth year month) (w : Weekday) :
    ∃ k, k ≤ 6 ∧ seekWeekday false w 7 ⟨year, month, s⟩ = ⟨year, month, s + k⟩ ∧
      dayOfWeek (⟨year, month, s + k⟩ : Date) = w := by
  obtain ⟨k, hk6, hseek, hw⟩ := seek_fwd_result hv w
  have hiter : succIter ⟨year, month, s⟩ k = ⟨year, month, s + k⟩ :=
    succIter_within_month hv (by show s + k ≤ daysInMonth year month; omega)
  refine ⟨k, hk6, ?_, ?_⟩
  · rw [hseek, hiter]
  · rw [← hiter]
    exact hw

theorem seek_bwd_in_month {year : Int} {month s : Nat}
    (hv : (Date.mk year month s).Valid) (hs : 6 < s) (w : Weekday) :
    ∃ k, k ≤ 6 ∧ seekWeekday true w 7 ⟨year, month, s⟩ = ⟨year, month, s - k⟩ ∧
      dayOfWeek (⟨year, month, s - k⟩ : Date) = w := by
  obtain ⟨k, hk6, hseek, hw⟩ := seek_bwd_result hv w
  have hiter : predIter ⟨year, month, s⟩ k = ⟨year, month, s - k⟩ :=
    predIter_within_month hv (by show k < s; omega)
  refine ⟨k, hk6, ?_, ?_⟩
  · rw [hseek, hiter]
  · rw [← hiter]
    exact hw

theorem last_day_of_month_eq {y : Int} {m : Nat} (h1 : 1 ≤ m) (h2 : m ≤ 12) :
    last_day_of_month y m = daysInMonth y m := by
  have hv : (Date.mk y m 1).Valid := ⟨h1, h2, le_refl 1, monthLen_pos _ _ h1 h2⟩
  have he : last_day_of_month y m = (accounting_period_end ⟨y, m, 1⟩).1.day := rfl
  rw [he, accounting_period_end_eq hv]

theorem monthWeekdayStep_fwd_spec {year : Int} {month s : Nat} (w : Weekday)
    (half_check : Option HalfCheck) (nth : NthWeek)
    (hl : isLastNth nth = false) (hs : nthStartDay nth year month = s)
    (hv : (Date.mk year month s).Valid)
    (hbound : s + 6 ≤ daysInMonth year month) :
    ∃ k, k ≤ 6 ∧
      monthWeekdayStep month w nth half_check year =
        .ok (some ⟨year, month, s + k⟩,
          do_halfday_check ⟨year, month, s + k⟩ half_check) ∧
      dayOfWeek (⟨year, month, s + k⟩ : Date) = w := by
  subst hs
  have h0 : fromYmd? year month (nthStartDay nth year month) =
      some ⟨year, month, nthStartDay nth year month⟩ := fromYmd?_valid_eq hv
  obtain ⟨k, hk6, hseek, hw⟩ := seek_fwd_in_month hv hbound w
  refine ⟨k, hk6, ?_, hw⟩
  simp only [monthWeekdayStep, h0, hl]
  rw [hseek]

theorem monthWeekdayStep_bwd_spec {year : Int} {month : Nat} (w : Weekday)
    (half_check : Option HalfCheck) (nth : NthWeek)
    (hl : isLastNth nth = true)
    (hs : nthStartDay nth year month = daysInMonth year month)
    (hv : (Date.mk year month (daysInMonth year month)).Valid)
    (hbound : 6 < daysInMonth year month) :
    ∃ k, k ≤ 6 ∧
      monthWeekdayStep month w nth half_check year =
        .ok (some ⟨year, month, daysInMonth year month - k⟩,
          do_halfday_check ⟨year, month, daysInMonth year month - k⟩ half_check) ∧
      dayOfWeek (⟨year, month, daysInMonth year month - k⟩ : Date) = w := by
  have h0 : fromYmd? year month (nthStartDay nth year month) =
      some ⟨year, month, nthStartDay nth year month⟩ := by
    rw [hs]
    exact fromYmd?_valid_eq hv
  obtain ⟨k, hk6, hseek, hw⟩ := seek_bwd_in_month hv hbound w
  refine ⟨k, hk6, ?_, hw⟩
  simp only [monthWeekdayStep, h0, hl]
  rw [hs, hseek]

/-- C5: for a `MonthWeekday` (NthWeekdayOfMonth) rule and a year whose start
date constructs, the walk (start day 1/8/15/22 for ordinals 1st–4th, the last
day of the month for "last"; forward for 1st–4th, backward for "last")
produces a date of that year and month whose weekday is the target and whose
day lies in the window characterizing exactly the nth (or last) occurrence of
that weekday; it is inserted as a full holiday with the half-day rule applied
unconditionally. With the 4th-Thursday-of-November + After rule over 2021,
Nov 25, 2021 is a holiday and Nov 26, 2021 a half-day. -/
theorem monthWeekday_nth_occurrence
    (month : Nat) (w : Weekday) (nth : NthWeek) (half_check : Option HalfCheck)
    (year : Int) (d0 : Date)
    (h0 : fromYmd? year month (nthStartDay nth year month) = some d0) :
    (∃ r : Date,
      monthWeekdayStep month w nth half_check year =
        .ok (some r, do_halfday_check r half_check) ∧
      r.Valid ∧ r.year = year ∧ r.month = month ∧ dayOfWeek r = w ∧
      (nth = .First → 1 ≤ r.day ∧ r.day ≤ 7) ∧
      (nth = .Second → 8 ≤ r.day ∧ r.day ≤ 14) ∧
      (nth = .Third → 15 ≤ r.day ∧ r.day ≤ 21) ∧
      (nth = .Fourth → 22 ≤ r.day ∧ r.day ≤ 28) ∧
      (nth = .Last → daysInMonth year month - 7 < r.day ∧
        r.day ≤ daysInMonth year month)) ∧
    calc_calendar [Holiday.MonthWeekday 11 .thu .Fourth none none (some .After)]
      2021 2021 = .ok thanksgivingCal ∧
    (⟨2021, 11, 25⟩ : Date) ∈ thanksgivingCal.holidays ∧
    (⟨2021, 11, 26⟩ : Date) ∈ thanksgivingCal.halfdays := by
  refine ⟨?_, rfl, by decide, by decide⟩
  obtain ⟨hd0eq, hd0v⟩ := fromYmd?_eq_some h0
  subst hd0eq
  have hm1 : 1 ≤ month := hd0v.1
  have hm2 : month ≤ 12 := hd0v.2.1
  have h28 : 28 ≤ daysInMonth year month :=
    monthLen_ge_28 (isLeap year) month hm1 hm2
  cases nth with
  | First =>
    obtain ⟨k, hk6, hstep, hw⟩ := @monthWeekdayStep_fwd_spec year month 1 w half_check
      NthWeek.First rfl rfl hd0v (by omega)
    refine ⟨⟨year, month, 1 + k⟩, hstep,
      ⟨hm1, hm2, by show 1 ≤ 1 + k; omega,
        by show 1 + k ≤ daysInMonth year month; omega⟩,
      rfl, rfl, hw, ?_, ?_, ?_, ?_, ?_⟩
    · intro _
      exact ⟨by show 1 ≤ 1 + k; omega, by show 1 + k ≤ 7; omega⟩
    all_goals intro hh; exact absurd hh (by decide)
  | Second =>
    obtain ⟨k, hk6, hstep, hw⟩ := @monthWeekdayStep_fwd_spec year month 8 w half_check
      NthWeek.Second rfl rfl hd0v (by omega)
    refine ⟨⟨year, month, 8 + k⟩, hstep,
      ⟨hm1, hm2, by show 1 ≤ 8 + k; omega,
        by show 8 + k ≤ daysInMonth year month; omega⟩,
      rfl, rfl, hw, ?_, ?_, ?_, ?_, ?_⟩
    · intro hh
      exact absurd hh (by decide)
    · intro _
      exact ⟨by show 8 ≤ 8 + k; omega, by show 8 + k ≤ 14; omega⟩
    all_goals intro hh; exact absurd hh (by decide)
  | Third =>
    obtain ⟨k, hk6, hstep, hw⟩ := @monthWeekdayStep_fwd_spec year month 15 w half_check
      NthWeek.Third rfl rfl hd0v (by omega)
    refine ⟨⟨year, month, 15 + k⟩, hstep,
      ⟨hm1, hm2, by show 1 ≤ 15 + k; omega,
        by show 15 + k ≤ daysInMonth year month; omega⟩,
      rfl, rfl, hw, ?_, ?_, ?_, ?_, ?_⟩
    · intro hh
      exact absurd hh (by decide)
    · intro hh
      exact absurd hh (by decide)
    · intro _
      exact ⟨by show 15 ≤ 15 + k; omega, by show 15 + k ≤ 21; omega⟩
    all_goals intro hh; exact absurd hh (by decide)
  | Fourth =>
    obtain ⟨k, hk6, hstep, hw⟩ := @monthWeekdayStep_fwd_spec year month 22 w half_check
      NthWeek.Fourth rfl rfl hd0v (by omega)
    refine ⟨⟨year, month, 22 + k⟩, hstep,
      ⟨hm1, hm2, by show 1 ≤ 22 + k; omega,
        by show 22 + k ≤ daysInMonth year month; omega⟩,
      rfl, rfl, hw, ?_, ?_, ?_, ?_, ?_⟩
    · intro hh
      exact absurd hh (by decide)
    · intro hh
      exact absurd hh (by decide)
    · intro hh
      exact absurd hh (by decide)
    · intro _
      exact ⟨by show 22 ≤ 22 + k; omega, by show 22 + k ≤ 28; omega⟩
    · intro hh
      exact absurd hh (by decide)
  | Last =>
    have hdim : nthStartDay NthWeek.Last year month = daysInMonth year month := by
      show last_day_of_month year month = _
      exact last_day_of_month_eq hm1 hm2
    obtain ⟨k, hk6, hstep, hw⟩ := monthWeekdayStep_bwd_spec w half_check
      NthWeek.Last rfl hdim (by rw [← hdim]; exact hd0v) (by omega)
    refine ⟨⟨year, month, daysInMonth year month - k⟩, hstep,
      ⟨hm1, hm2,
        by show 1 ≤ daysInMonth year month - k; omega,
        by show daysInMonth year month - k ≤ daysInMonth year month; omega⟩,
      rfl, rfl, hw, ?_, ?_, ?_, ?_, ?_⟩
    · intro hh
      exact absurd hh (by decide)
    · intro hh
      exact absurd hh (by decide)
    · intro hh
      exact absurd hh (by decide)
    · intro hh
      exact absurd hh (by decide)
    · intro _
      refine ⟨?_, ?_⟩
      · show daysInMonth year month - 7 < daysInMonth year month - k
        omega
      · show daysInMonth year month - k ≤ daysInMonth year month
        omega

theorem c5_witness : ∃ r,
    monthWeekdayStep 11 Weekday.thu NthWeek.Fourth (some HalfCheck.After) 2021 =
      .ok (some r, do_halfday_check r (some HalfCheck.After)) ∧
    dayOfWeek r = Weekday.thu ∧ 22 ≤ r.day ∧ r.day ≤ 28 := by
  obtain ⟨⟨r, h1, _, _, _, hw, _, _, _, h4, _⟩, _⟩ :=
    monthWeekday_nth_occurrence 11 Weekday.thu NthWeek.Fourth
      (some HalfCheck.After) 2021 ⟨2021, 11, 22⟩ (by decide)
  exact ⟨r, h1, hw, (h4 rfl).1, (h4 rfl).2⟩

theorem nextBiz_run {cal : Calendar} : ∀ (k : Nat) (d : Date) (fuel : Nat),
    1 ≤ k → k ≤ fuel → cal.is_business_day (succIter d k) = true →
    (∀ j, 1 ≤ j → j < k → cal.is_business_day (succIter d j) = false) →
    cal.next_biz_day fuel d = some (succIter d k) := by
  intro k
  induction k with
  | zero => intro d fuel h1; omega
  | succ k ih =>
    intro d fuel h1 hfl hb hmin
    cases fuel with
    | zero => omega
    | succ f =>
      cases k with
      | zero =>
        have hb' : cal.is_business_day (succD d) = true := hb
        simp only [Calendar.next_biz_day, hb', if_true]
        rfl
      | succ k' =>
        have hfst : cal.is_business_day (succD d) = false := hmin 1 (by omega) (by omega)
        simp only [Calendar.next_biz_day, hfst, Bool.false_eq_true, if_false]
        have hb' : cal.is_business_day (succIter (succD d) (k' + 1)) = true := hb
        have hmin' : ∀ j, 1 ≤ j → j < k' + 1 →
            cal.is_business_day (succIter (succD d) j) = false :=
          fun j hj1 hj2 => hmin (j + 1) (by omega) (by omega)
        exact ih (succD d) f (by omega) (by omega) hb' hmin'

theorem prevBiz_run {cal : Calendar} : ∀ (k : Nat) (d : Date) (fuel : Nat),
    1 ≤ k → k ≤ fuel → cal.is_business_day (predIter d k) = true →
    (∀ j, 1 ≤ j → j < k → cal.is_business_day (predIter d j) = false) →
    cal.prev_biz_day fuel d = some (predIter d k) := by
  intro k
  induction k with
  | zero => intro d fuel h1; omega
  | succ k ih =>
    intro d fuel h1 hfl hb hmin
    cases fuel with
    | zero => omega
    | succ f =>
      cases k with
      | zero =>
        have hb' : cal.is_business_day (predD d) = true := hb
        simp only [Calendar.prev_biz_day, hb', if_true]
        rfl
      | succ k' =>
        have hfst : cal.is_business_day (predD d) = false := hmin 1 (by omega) (by omega)
        simp only [Calendar.prev_biz_day, hfst, Bool.false_eq_true, if_false]
        have hb' : cal.is_business_day (predIter (predD d) (k' + 1)) = true := hb
        have hmin' : ∀ j, 1 ≤ j → j < k' + 1 →
            cal.is_business_day (predIter (predD d) j) = false :=
          fun j hj1 hj2 => hmin (j + 1) (by omega) (by omega)
        exact ih (predD d) f (by omega) (by omega) hb' hmin'

theorem nextBiz_none {cal : Calendar} : ∀ (fuel : Nat) (d : Date), d.Valid →
    (∀ e, e.Valid → toRd d < toRd e → cal.is_business_day e = false) →
    cal.next_biz_day fuel d = none := by
  intro fuel
  induction fuel with
  | zero => intro d _ _; rfl
  | succ f ih =>
    intro d hv h
    have hb : cal.is_business_day (succD d) = false :=
      h (succD d) (valid_succD hv) (by rw [toRd_succD hv]; omega)
    simp only [Calendar.next_biz_day, hb, Bool.false_eq_true, if_false]
    exact ih (succD d) (valid_succD hv)
      (fun e hev hlt => h e hev (by have := toRd_succD hv; omega))

theorem prevBiz_none {cal : Calendar} : ∀ (fuel : Nat) (d : Date), d.Valid →
    (∀ e, e.Valid → toRd e < toRd d → cal.is_business_day e = false) →
    cal.prev_biz_day fuel d = none := by
  intro fuel
  induction fuel with
  | zero => intro d _ _; rfl
  | succ f ih =>
    intro d hv h
    have hb : cal.is_business_day (predD d) = false :=
      h (predD d) (valid_predD hv) (by rw [toRd_predD hv]; omega)
    simp only [Calendar.prev_biz_day, hb, Bool.false_eq_true, if_false]
    exact ih (predD d) (valid_predD hv)
      (fun e hev hlt => h e hev (by have := toRd_predD hv; omega))

/-- The default exchange calendar built over the (covering) year 2021. -/
def defaultCal2021 : Calendar :=
  match calc_calendar defaultRules 2021 2021 with
  | .ok c => c
  | .error _ => ⟨[], [], []⟩

/-- C4: when some strictly later (resp. earlier) date is a business day,
`next_biz_day` (resp. `prev_biz_day`) finds, with enough fuel, the smallest
business day strictly after (resp. greatest strictly before) the query date —
never the query date itself — and every intermediate date is not a business
day; when no such business day exists, no amount of fuel produces an answer
(the Rust loop would not terminate). For the default exchange table over a
covering range, `prev_biz_day` of Jan 18, 2021 is Jan 15, 2021 and
`next_biz_day` of Apr 16, 2021 is Apr 19, 2021. -/
theorem biz_traversal :
    (∀ (cal : Calendar) (d : Date) (m : Nat), d.Valid → 1 ≤ m →
      cal.is_business_day (succIter d m) = true →
      ∃ k, 1 ≤ k ∧ k ≤ m ∧ cal.is_business_day (succIter d k) = true ∧
        toRd d < toRd (succIter d k) ∧
        (∀ fuel, k ≤ fuel → cal.next_biz_day fuel d = some (succIter d k)) ∧
        (∀ e, e.Valid → toRd d < toRd e → toRd e < toRd (succIter d k) →
          cal.is_business_day e = false)) ∧
    (∀ (cal : Calendar) (d : Date) (m : Nat), d.Valid → 1 ≤ m →
      cal.is_business_day (predIter d m) = true →
      ∃ k, 1 ≤ k ∧ k ≤ m ∧ cal.is_business_day (predIter d k) = true ∧
        toRd (predIter d k) < toRd d ∧
        (∀ fuel, k ≤ fuel → cal.prev_biz_day fuel d = some (predIter d k)) ∧
        (∀ e, e.Valid → toRd e < toRd d → toRd (predIter d k) < toRd e →
          cal.is_business_day e = false)) ∧
    (∀ (cal : Calendar) (d : Date), d.Valid →
      (∀ e, e.Valid → toRd d < toRd e → cal.is_business_day e = false) →
      ∀ fuel, cal.next_biz_day fuel d = none) ∧
    (∀ (cal : Calendar) (d : Date), d.Valid →
      (∀ e, e.Valid → toRd e < toRd d → cal.is_business_day e = false) →
      ∀ fuel, cal.prev_biz_day fuel d = none) ∧
    calc_calendar defaultRules 2021 2021 = .ok defaultCal2021 ∧
    defaultCal2021.prev_biz_day 10 ⟨2021, 1, 18⟩ = some ⟨2021, 1, 15⟩ ∧
    defaultCal2021.next_biz_day 10 ⟨2021, 4, 16⟩ = some ⟨2021, 4, 19⟩ := by
  refine ⟨?_, ?_, ?_, ?_, rfl, by decide, by decide⟩
  · intro cal d m hv hm hb
    have hex : ∃ k, 1 ≤ k ∧ cal.is_business_day (succIter d k) = true := ⟨m, hm, hb⟩
    have hspec := Nat.find_spec hex
    refine ⟨Nat.find hex, hspec.1, Nat.find_min' hex ⟨hm, hb⟩, hspec.2, ?_, ?_, ?_⟩
    · rw [toRd_succIter hv]
      have := hspec.1
      omega
    · intro fuel hfuel
      refine nextBiz_run (Nat.find hex) d fuel hspec.1 hfuel hspec.2 ?_
      intro j hj1 hj2
      cases hbj : cal.is_business_day (succIter d j) with
      | false => rfl
      | true => exact absurd ⟨hj1, hbj⟩ (Nat.find_min hex hj2)
    · intro e hev h1 h2
      rw [toRd_succIter hv] at h2
      have hi1 : 1 ≤ (toRd e - toRd d).toNat := by omega
      have hi2 : (toRd e - toRd d).toNat < Nat.find hex := by omega
      have hEq : toRd (succIter d (toRd e - toRd d).toNat) = toRd e := by
        rw [toRd_succIter hv]
        omega
      have heq2 : e = succIter d (toRd e - toRd d).toNat :=
        toRd_inj hev (valid_succIter hv _) hEq.symm
      rw [heq2]
      cases hbj : cal.is_business_day (succIter d (toRd e - toRd d).toNat) with
      | false => rfl
      | true => exact absurd ⟨hi1, hbj⟩ (Nat.find_min hex hi2)
  · intro cal d m hv hm hb
    have hex : ∃ k, 1 ≤ k ∧ cal.is_business_day (predIter d k) = true := ⟨m, hm, hb⟩
    have hspec := Nat.find_spec hex
    refine ⟨Nat.find hex, hspec.1, Nat.find_min' hex ⟨hm, hb⟩, hspec.2, ?_, ?_, ?_⟩
    · rw [toRd_predIter hv]
      have := hspec.1
      omega
    · intro fuel hfuel
      refine prevBiz_run (Nat.find hex) d fuel hspec.1 hfuel hspec.2 ?_
      intro j hj1 hj2
      cases hbj : cal.is_business_day (predIter d j) with
      | false => rfl
      | true => exact absurd ⟨hj1, hbj⟩ (Nat.find_min hex hj2)
    · intro e hev h1 h2
      rw [toRd_predIter hv] at h2
      have hi1 : 1 ≤ (toRd d - toRd e).toNat := by omega
      have hi2 : (toRd d - toRd e).toNat < Nat.find hex := by omega
      have hEq : toRd (predIter d (toRd d - toRd e).toNat) = toRd e := by
        rw [toRd_predIter hv]
        omega
      have heq2 : e = predIter d (toRd d - toRd e).toNat :=
        toRd_inj hev (valid_predIter hv _) hEq.symm
      rw [heq2]
      cases hbj : cal.is_business_day (predIter d (toRd d - toRd e).toNat) with
      | false => rfl
      | true => exact absurd ⟨hi1, hbj⟩ (Nat.find_min hex hi2)
  · exact fun cal d hv h fuel => nextBiz_none fuel d hv h
  · exact fun cal d hv h fuel => prevBiz_none fuel d hv h

theorem c4_witness : ∃ r,
    defaultCal2021.next_biz_day 10 ⟨2021, 4, 16⟩ = some r ∧
    defaultCal2021.is_business_day r = true := by
  obtain ⟨k, hk1, hkm, hbk, hord, hrun, hmin⟩ :=
    biz_traversal.1 defaultCal2021 ⟨2021, 4, 16⟩ 3 (by decide) (by decide) (by decide)
  exact ⟨succIter ⟨2021, 4, 16⟩ k, hrun 10 (by omega), hbk⟩

/-- C10: building from a concatenated rule list yields (when both halves
build) the union of the two calendars' holiday sets, half-day sets, and
weekend-weekday classifications; consequently appending rules never removes
a holiday, half-day, or weekend classification. -/
theorem calc_calendar_concat
    (r1 r2 : List Holiday) (start stop : Int) (c1 c2 : Calendar)
    (h1 : calc_calendar r1 start stop = .ok c1)
    (h2 : calc_calendar r2 start stop = .ok c2) :
    ∃ c, calc_calendar (r1 ++ r2) start stop = .ok c ∧
      (∀ x, x ∈ c.holidays ↔ x ∈ c1.holidays ∨ x ∈ c2.holidays) ∧
      (∀ x, x ∈ c.halfdays ↔ x ∈ c1.halfdays ∨ x ∈ c2.halfdays) ∧
      (∀ w, w ∈ c.weekdays ↔ w ∈ c1.weekdays ∨ w ∈ c2.weekdays) ∧
      (∀ d, c.is_weekend d = (c1.is_weekend d || c2.is_weekend d)) ∧
      (∀ x, x ∈ c1.holidays → x ∈ c.holidays) ∧
      (∀ x, x ∈ c1.halfdays → x ∈ c.halfdays) := by
  unfold calc_calendar at h1 h2 ⊢
  obtain ⟨c, hc⟩ := applyRules_ok_indep h2 c1
  obtain ⟨m2h, m2f, m2w⟩ := applyRules_mem h2
  obtain ⟨mh, mf, mw⟩ := applyRules_mem hc
  have hmainh : ∀ x, x ∈ c.holidays ↔ x ∈ c1.holidays ∨ x ∈ c2.holidays := by
    intro x
    rw [mh x, m2h x]
    simp
  have hmainf : ∀ x, x ∈ c.halfdays ↔ x ∈ c1.halfdays ∨ x ∈ c2.halfdays := by
    intro x
    rw [mf x, m2f x]
    simp
  have hmainw : ∀ w, w ∈ c.weekdays ↔ w ∈ c1.weekdays ∨ w ∈ c2.weekdays := by
    intro w
    rw [mw, m2w]
    simp
  refine ⟨c, ?_, hmainh, hmainf, hmainw, ?_, ?_, ?_⟩
  · rw [applyRules_append, h1]
    exact hc
  · intro d
    have hiff : (weekendScan (dayOfWeek d) c.weekdays = true) ↔
        (weekendScan (dayOfWeek d) c1.weekdays ||
          weekendScan (dayOfWeek d) c2.weekdays) = true := by
      rw [Bool.or_eq_true, weekendScan_iff, weekendScan_iff, weekendScan_iff]
      exact hmainw (dayOfWeek d)
    show weekendScan (dayOfWeek d) c.weekdays =
      (weekendScan (dayOfWeek d) c1.weekdays ||
        weekendScan (dayOfWeek d) c2.weekdays)
    cases hb : (weekendScan (dayOfWeek d) c1.weekdays ||
        weekendScan (dayOfWeek d) c2.weekdays) with
    | true => exact hiff.mpr hb
    | false =>
      cases hb2 : weekendScan (dayOfWeek d) c.weekdays with
      | false => rfl
      | true =>
        have hcontra := hiff.mp hb2
        rw [hb] at hcontra
        exact absurd hcontra (by simp)
  · intro x hx
    exact (hmainh x).mpr (Or.inl hx)
  · intro x hx
    exact (hmainf x).mpr (Or.inl hx)

theorem c10_witness :
    ∃ c, calc_calendar ([Holiday.WeekDay Weekday.sat] ++
        [Holiday.SingularDay ⟨2021, 1, 6⟩]) 2021 2021 = .ok c ∧
      (⟨2021, 1, 6⟩ : Date) ∈ c.holidays ∧
      c.is_weekend ⟨2021, 1, 2⟩ = true := by
  obtain ⟨c, hok, hh, _, _, hwk, _, _⟩ := calc_calendar_concat
    [Holiday.WeekDay Weekday.sat] [Holiday.SingularDay ⟨2021, 1, 6⟩]
    2021 2021 ⟨[], [], [Weekday.sat]⟩ ⟨[⟨2021, 1, 6⟩], [], []⟩ rfl rfl
  refine ⟨c, hok, (hh _).mpr (Or.inr (by decide)), ?_⟩
  rw [hwk ⟨2021, 1, 2⟩]
  decide

/-- A model of the JSON wire values produced by the serde encoding. -/
inductive Json where
  | null
  | num (n : Int)
  | str (s : String)
  | arr (xs : List Json)
  | obj (fields : List (String × Json))

/-- The character for a decimal digit. -/
def digitChar (k : Nat) : Char :=
  match k with
  | 0 => '0'
  | 1 => '1'
  | 2 => '2'
  | 3 => '3'
  | 4 => '4'
  | 5 => '5'
  | 6 => '6'
  | 7 => '7'
  | 8 => '8'
  | _ => '9'

/-- The decimal value of a digit character. -/
def charDigitVal (c : Char) : Nat :=
  match c with
  | '0' => 0
  | '1' => 1
  | '2' => 2
  | '3' => 3
  | '4' => 4
  | '5' => 5
  | '6' => 6
  | '7' => 7
  | '8' => 8
  | _ => 9

/-- Whether a character is a decimal digit. -/
def isDig (c : Char) : Bool :=
  decide (48 ≤ c.toNat) && decide (c.toNat ≤ 57)

/-- Decimal digit characters of a natural number, most significant first
(empty for zero). -/
def natToChars (n : Nat) : List Char :=
  ((Nat.digits 10 n).map digitChar).reverse

/-- Natural number denoted by a list of decimal digit characters. -/
def charsToNat (cs : List Char) : Nat :=
  Nat.ofDigits 10 ((cs.map charDigitVal).reverse)

/-- Left-pad with zero characters to the given width. -/
def padLeft (w : Nat) (cs : List Char) : List Char :=
  List.replicate (w - cs.length) '0' ++ cs

/-- Fixed-width decimal rendering of a natural number. -/
def formatNatPad (w n : Nat) : List Char := padLeft w (natToChars n)

/-- The ISO-8601 date rendering used by chrono's serde support:
`YYYY-MM-DD`, with a `-` sign for negative years and a `+` prefix for years
above 9999. -/
def formatDateChars (d : Date) : List Char :=
  (if d.year < 0 then '-' :: formatNatPad 4 d.year.natAbs
   else if d.year ≤ 9999 then formatNatPad 4 d.year.toNat
   else '+' :: natToChars d.year.toNat) ++
  '-' :: (formatNatPad 2 d.month ++ '-' :: formatNatPad 2 d.day)

/-- Strip an optional leading sign, reporting whether it was `-`. -/
def splitSign (cs : List Char) : Bool × List Char :=
  match cs with
  | c :: rest =>
    if c = '-' then (true, rest)
    else if c = '+' then (false, rest)
    else (false, c :: rest)
  | [] => (false, [])

/-- Parse the ISO-8601 date rendering back into a (validated) date,
modelling chrono's deserialization. -/
def parseDateChars (cs : List Char) : Option Date :=
  let sp := splitSign cs
  let yds := sp.2.takeWhile isDig
  let rest1 := sp.2.dropWhile isDig
  match yds, rest1 with
  | [], _ => none
  | _ :: _, '-' :: cs2 =>
    let mds := cs2.takeWhile isDig
    let rest2 := cs2.dropWhile isDig
    match mds, rest2 with
    | [], _ => none
    | _ :: _, '-' :: cs3 =>
      if cs3 ≠ [] ∧ cs3.all isDig then
        fromYmd? (if sp.1 then -(charsToNat yds : Int) else (charsToNat yds : Int))
          (charsToNat mds) (charsToNat cs3)
      else none
    | _, _ => none
  | _, _ => none

/-- serde's three-letter name for a weekday. -/
def weekdayName : Weekday → String
  | .mon => "Mon"
  | .tue => "Tue"
  | .wed => "Wed"
  | .thu => "Thu"
  | .fri => "Fri"
  | .sat => "Sat"
  | .sun => "Sun"

/-- Parse a weekday name. -/
def parseWeekday (s : String) : Option Weekday :=
  if s = "Mon" then some .mon
  else if s = "Tue" then some .tue
  else if s = "Wed" then some .wed
  else if s = "Thu" then some .thu
  else if s = "Fri" then some .fri
  else if s = "Sat" then some .sat
  else if s = "Sun" then some .sun
  else none

/-- serde's name for an `NthWeek` value. -/
def nthName : NthWeek → String
  | .First => "First"
  | .Second => "Second"
  | .Third => "Third"
  | .Fourth => "Fourth"
  | .Last => "Last"

/-- Parse an `NthWeek` name. -/
def parseNth (s : String) : Option NthWeek :=
  if s = "First" then some .First
  else if s = "Second" then some .Second
  else if s = "Third" then some .Third
  else if s = "Fourth" then some .Fourth
  else if s = "Last" then some .Last
  else none

/-- Encode an optional year bound: unset encodes as explicit `null`. -/
def encOptInt : Option Int → Json
  | none => .null
  | some n => .num n

/-- Decode an optional year bound: `null` decodes to not-set. -/
def decOptInt : Json → Option (Option Int)
  | .null => some none
  | .num n => some (some n)
  | _ => none

/-- Encode an optional half-day adjacency: unset encodes as explicit `null`. -/
def encOptHalf : Option HalfCheck → Json
  | none => .null
  | some .Before => .str "Before"
  | some .After => .str "After"

/-- Decode an optional half-day adjacency. -/
def decOptHalf : Json → Option (Option HalfCheck)
  | .null => some none
  | .str s =>
    if s = "Before" then some (some .Before)
    else if s = "After" then some (some .After)
    else none
  | _ => none

/-- Decode an unsigned integer field (`u32` in the Rust model). -/
def decNat : Json → Option Nat
  | .num n => if 0 ≤ n then some n.toNat else none
  | _ => none

/-- Decode a signed integer field (`i32` in the Rust model). -/
def decInt : Json → Option Int
  | .num n => some n
  | _ => none

/-- Encode a date as its ISO string. -/
def encodeDate (d : Date) : Json := .str (String.mk (formatDateChars d))

/-- Decode a date from its ISO string. -/
def decodeDate : Json → Option Date
  | .str s => parseDateChars s.data
  | _ => none

/-- The serde (externally tagged) encoding of one `Holiday` rule: a
single-key object keyed by the variant name, with the declared field names
and explicit `null` for unset optional fields. -/
def encodeHoliday : Holiday → Json
  | .WeekDay w => .obj [("WeekDay", .str (weekdayName w))]
  | .MovableYearlyDay month day first last half_check =>
    .obj [("MovableYearlyDay", .obj
      [("month", .num month), ("day", .num day), ("first", encOptInt first),
       ("last", encOptInt last), ("half_check", encOptHalf half_check)])]
  | .SingularDay date => .obj [("SingularDay", encodeDate date)]
  | .EasterOffset offset first last =>
    .obj [("EasterOffset", .obj
      [("offset", .num offset), ("first", encOptInt first),
       ("last", encOptInt last)])]
  | .MonthWeekday month weekday nth first last half_check =>
    .obj [("MonthWeekday", .obj
      [("month", .num month), ("weekday", .str (weekdayName weekday)),
       ("nth", .str (nthName nth)), ("first", encOptInt first),
       ("last", encOptInt last), ("half_check", encOptHalf half_check)])]

/-- Decode a `WeekDay` variant payload. -/
def decWeekDayV : Json → Option Holiday
  | .str s => (parseWeekday s).map .WeekDay
  | _ => none

/-- Decode a `MovableYearlyDay` variant payload. -/
def decMovableV : Json → Option Holiday
  | .obj [("month", jm), ("day", jd), ("first", jf), ("last", jl),
      ("half_check", jh)] =>
    (decNat jm).bind fun month =>
    (decNat jd).bind fun day =>
    (decOptInt jf).bind fun first =>
    (decOptInt jl).bind fun last =>
    (decOptHalf jh).map fun half_check =>
      .MovableYearlyDay month day first last half_check
  | _ => none

/-- Decode a `SingularDay` variant payload. -/
def decSingularV (j : Json) : Option Holiday :=
  (decodeDate j).map .SingularDay

/-- Decode an `EasterOffset` variant payload. -/
def decEasterV : Json → Option Holiday
  | .obj [("offset", jo), ("first", jf), ("last", jl)] =>
    (decInt jo).bind fun offset =>
    (decOptInt jf).bind fun first =>
    (decOptInt jl).map fun last => .EasterOffset offset first last
  | _ => none

/-- Decode a `MonthWeekday` variant payload. -/
def decMonthWeekdayV : Json → Option Holiday
  | .obj [("month", jm), ("weekday", .str sw), ("nth", .str sn),
      ("first", jf), ("last", jl), ("half_check", jh)] =>
    (decNat jm).bind fun month =>
    (parseWeekday sw).bind fun weekday =>
    (parseNth sn).bind fun nth =>
    (decOptInt jf).bind fun first =>
    (decOptInt jl).bind fun last =>
    (decOptHalf jh).map fun half_check =>
      .MonthWeekday month weekday nth first last half_check
  | _ => none

/-- Dispatch on the variant name, as serde's externally tagged decoding does. -/
def decodeVariant (key : String) (v : Json) : Option Holiday :=
  if key = "WeekDay" then decWeekDayV v
  else if key = "MovableYearlyDay" then decMovableV v
  else if key = "SingularDay" then decSingularV v
  else if key = "EasterOffset" then decEasterV v
  else if key = "MonthWeekday" then decMonthWeekdayV v
  else none

/-- Decode one `Holiday` rule from its wire object (a single-key object
keyed by the variant name). -/
def decodeHoliday : Json → Option Holiday
  | .obj [(key, v)] => decodeVariant key v
  | _ => none

/-- Encode a rule list as a JSON array, in order. -/
def encodeRules (rs : List Holiday) : Json := .arr (rs.map encodeHoliday)

/-- Decode a list of wire objects. -/
def decodeRulesList : List Json → Option (List Holiday)
  | [] => some []
  | j :: js =>
    match decodeHoliday j, decodeRulesList js with
    | some h, some hs => some (h :: hs)
    | _, _ => none

/-- Decode a rule list from a JSON array. -/
def decodeRules : Json → Option (List Holiday)
  | .arr xs => decodeRulesList xs
  | _ => none

/-- Well-formedness of a rule: any embedded date is a valid Gregorian date
(every `chrono::NaiveDate` is, by construction). -/
def HolidayWF : Holiday → Prop
  | .SingularDay d => d.Valid
  | _ => True

instance : (h : Holiday) → Decidable (HolidayWF h)
  | .WeekDay _ => .isTrue trivial
  | .MovableYearlyDay _ _ _ _ _ => .isTrue trivial
  | .SingularDay d => inferInstanceAs (Decidable d.Valid)
  | .EasterOffset _ _ _ => .isTrue trivial
  | .MonthWeekday _ _ _ _ _ _ => .isTrue trivial


theorem charDigitVal_digitChar : ∀ k < 10, charDigitVal (digitChar k) = k := by
  decide

theorem isDig_digitChar : ∀ k < 10, isDig (digitChar k) = true := by
  decide

theorem natToChars_all_dig (n : Nat) : ∀ c ∈ natToChars n, isDig c = true := by
  intro c hc
  unfold natToChars at hc
  rw [List.mem_reverse, List.mem_map] at hc
  obtain ⟨k, hk, rfl⟩ := hc
  exact isDig_digitChar k (Nat.digits_lt_base (by omega) hk)

theorem charsToNat_natToChars (n : Nat) : charsToNat (natToChars n) = n := by
  unfold charsToNat natToChars
  rw [List.map_reverse, List.reverse_reverse, List.map_map]
  have hmap : (Nat.digits 10 n).map (charDigitVal ∘ digitChar) =
      (Nat.digits 10 n).map id := by
    apply List.map_congr_left
    intro k hk
    exact charDigitVal_digitChar k (Nat.digits_lt_base (by omega) hk)
  rw [hmap, List.map_id]
  exact Nat.ofDigits_digits 10 n

theorem ofDigits_replicate_zero (b : Nat) : ∀ j, Nat.ofDigits b (List.replicate j 0) = 0
  | 0 => rfl
  | j + 1 => by
    show Nat.ofDigits b (0 :: List.replicate j 0) = 0
    rw [Nat.ofDigits_cons, ofDigits_replicate_zero b j]
    simp

theorem charsToNat_padLeft (w : Nat) (cs : List Char) :
    charsToNat (padLeft w cs) = charsToNat cs := by
  unfold padLeft charsToNat
  rw [List.map_append, List.reverse_append]
  have hrep : (List.replicate (w - cs.length) '0').map charDigitVal =
      List.replicate (w - cs.length) 0 := by
    rw [List.map_replicate]
    rfl
  rw [hrep, List.reverse_replicate, Nat.ofDigits_append, ofDigits_replicate_zero]
  simp

theorem padLeft_all_dig (w : Nat) (cs : List Char)
    (h : ∀ c ∈ cs, isDig c = true) : ∀ c ∈ padLeft w cs, isDig c = true := by
  intro c hc
  unfold padLeft at hc
  rw [List.mem_append] at hc
  rcases hc with hc | hc
  · rw [List.mem_replicate] at hc
    rw [hc.2]
    decide
  · exact h c hc

theorem padLeft_ne_nil (w : Nat) (hw : 1 ≤ w) (cs : List Char) :
    padLeft w cs ≠ [] := by
  unfold padLeft
  intro he
  rw [List.append_eq_nil] at he
  rw [List.replicate_eq_nil_iff] at he
  have := he.1
  have hlen : cs.length = 0 := by rw [he.2]; rfl
  omega

theorem takeWhile_middle {p : Char → Bool} {l1 l2 : List Char} {c : Char}
    (h1 : ∀ x ∈ l1, p x = true) (hc : p c = false) :
    (l1 ++ c :: l2).takeWhile p = l1 ∧ (l1 ++ c :: l2).dropWhile p = c :: l2 := by
  induction l1 with
  | nil =>
    simp only [List.nil_append]
    constructor
    · rw [List.takeWhile_cons]
      rw [hc]
      rfl
    · rw [List.dropWhile_cons]
      rw [hc]
      rfl
  | cons a l ih =>
    have ha : p a = true := h1 a (by simp)
    obtain ⟨iht, ihd⟩ := ih (fun x hx => h1 x (by simp [hx]))
    constructor
    · show ((a :: (l ++ c :: l2)).takeWhile p) = a :: l
      rw [List.takeWhile_cons, ha]
      simp [iht]
    · show ((a :: (l ++ c :: l2)).dropWhile p) = c :: l2
      rw [List.dropWhile_cons, ha]
      simp [ihd]

theorem splitSign_digit {c : Char} (h : isDig c = true) (rest : List Char) :
    splitSign (c :: rest) = (false, c :: rest) := by
  show (if c = '-' then (true, rest)
    else if c = '+' then (false, rest) else (false, c :: rest)) = (false, c :: rest)
  rw [if_neg, if_neg]
  · intro he
    subst he
    exact absurd h (by decide)
  · intro he
    subst he
    exact absurd h (by decide)

theorem splitSign_neg (rest : List Char) :
    splitSign ('-' :: rest) = (true, rest) := by
  show (if '-' = '-' then (true, rest)
    else if '-' = '+' then (false, rest) else (false, '-' :: rest)) = (true, rest)
  rw [if_pos rfl]

theorem splitSign_plus (rest : List Char) :
    splitSign ('+' :: rest) = (false, rest) := by
  show (if '+' = '-' then (true, rest)
    else if '+' = '+' then (false, rest) else (false, '+' :: rest)) = (false, rest)
  rw [if_neg (by decide), if_pos rfl]

theorem parse_core (neg : Bool) (ycs mcs dcs cs : List Char)
    (hsp : splitSign cs = (neg, ycs ++ '-' :: (mcs ++ '-' :: dcs)))
    (hyne : ycs ≠ []) (hyall : ∀ c ∈ ycs, isDig c = true)
    (hmne : mcs ≠ []) (hmall : ∀ c ∈ mcs, isDig c = true)
    (hdne : dcs ≠ []) (hdall : ∀ c ∈ dcs, isDig c = true) :
    parseDateChars cs =
      fromYmd? (if neg then -(charsToNat ycs : Int) else (charsToNat ycs : Int))
        (charsToNat mcs) (charsToNat dcs) := by
  obtain ⟨yc, ycr, rfl⟩ := List.exists_cons_of_ne_nil hyne
  obtain ⟨mc, mcr, rfl⟩ := List.exists_cons_of_ne_nil hmne
  obtain ⟨ht1, hd1⟩ := @takeWhile_middle isDig (yc :: ycr)
    ((mc :: mcr) ++ '-' :: dcs) '-' hyall (by decide : isDig '-' = false)
  obtain ⟨ht2, hd2⟩ := @takeWhile_middle isDig (mc :: mcr) dcs '-'
    hmall (by decide : isDig '-' = false)
  unfold parseDateChars
  rw [hsp]
  simp only [ht1, hd1, ht2, hd2]
  rw [if_pos ⟨hdne, by rw [List.all_eq_true]; exact hdall⟩]

theorem parseDateChars_format {d : Date} (hv : d.Valid) :
    parseDateChars (formatDateChars d) = some d := by
  obtain ⟨y, m, dd⟩ := d
  have hmcs : ∀ c ∈ formatNatPad 2 m, isDig c = true :=
    padLeft_all_dig 2 _ (natToChars_all_dig m)
  have hdcs : ∀ c ∈ formatNatPad 2 dd, isDig c = true :=
    padLeft_all_dig 2 _ (natToChars_all_dig dd)
  have hmne : formatNatPad 2 m ≠ [] := padLeft_ne_nil 2 (by omega) _
  have hdne : formatNatPad 2 dd ≠ [] := padLeft_ne_nil 2 (by omega) _
  have hmval : charsToNat (formatNatPad 2 m) = m := by
    unfold formatNatPad
    rw [charsToNat_padLeft, charsToNat_natToChars]
  have hdval : charsToNat (formatNatPad 2 dd) = dd := by
    unfold formatNatPad
    rw [charsToNat_padLeft, charsToNat_natToChars]
  by_cases hyn : y < 0
  · have hfmt : formatDateChars ⟨y, m, dd⟩ =
        '-' :: (formatNatPad 4 y.natAbs ++
          '-' :: (formatNatPad 2 m ++ '-' :: formatNatPad 2 dd)) := by
      unfold formatDateChars
      rw [if_pos hyn]
      rfl
    rw [hfmt]
    rw [parse_core true (formatNatPad 4 y.natAbs) (formatNatPad 2 m)
      (formatNatPad 2 dd) _ (splitSign_neg _)
      (padLeft_ne_nil 4 (by omega) _)
      (padLeft_all_dig 4 _ (natToChars_all_dig _)) hmne hmcs hdne hdcs]
    have hyval : charsToNat (formatNatPad 4 y.natAbs) = y.natAbs := by
      unfold formatNatPad
      rw [charsToNat_padLeft, charsToNat_natToChars]
    rw [if_pos rfl, hyval, hmval, hdval]
    have hyeq : -(y.natAbs : Int) = y := by omega
    rw [hyeq]
    exact fromYmd?_valid_eq hv
  · by_cases hyb : y ≤ 9999
    · have hfmt : formatDateChars ⟨y, m, dd⟩ =
          formatNatPad 4 y.toNat ++
            '-' :: (formatNatPad 2 m ++ '-' :: formatNatPad 2 dd) := by
        unfold formatDateChars
        rw [if_neg hyn, if_pos hyb]
      rw [hfmt]
      obtain ⟨c, cr, hcons⟩ := List.exists_cons_of_ne_nil
        (padLeft_ne_nil 4 (by omega) (natToChars y.toNat) :
          formatNatPad 4 y.toNat ≠ [])
      have hcall : ∀ x ∈ formatNatPad 4 y.toNat, isDig x = true :=
        padLeft_all_dig 4 _ (natToChars_all_dig _)
      have hcons' : formatNatPad 4 y.toNat = c :: cr := hcons
      have hcdig : isDig c = true := by
        apply hcall
        rw [hcons']
        simp
      have hsp : splitSign (formatNatPad 4 y.toNat ++
          '-' :: (formatNatPad 2 m ++ '-' :: formatNatPad 2 dd)) =
          (false, formatNatPad 4 y.toNat ++
            '-' :: (formatNatPad 2 m ++ '-' :: formatNatPad 2 dd)) := by
        rw [hcons', List.cons_append]
        exact splitSign_digit hcdig _
      rw [parse_core false (formatNatPad 4 y.toNat) (formatNatPad 2 m)
        (formatNatPad 2 dd) _ hsp
        (padLeft_ne_nil 4 (by omega) _) hcall hmne hmcs hdne hdcs]
      have hyval : charsToNat (formatNatPad 4 y.toNat) = y.toNat := by
        unfold formatNatPad
        rw [charsToNat_padLeft, charsToNat_natToChars]
      rw [if_neg (by simp), hyval, hmval, hdval]
      have hyeq : (y.toNat : Int) = y := by omega
      rw [hyeq]
      exact fromYmd?_valid_eq hv
    · have hfmt : formatDateChars ⟨y, m, dd⟩ =
          '+' :: (natToChars y.toNat ++
            '-' :: (formatNatPad 2 m ++ '-' :: formatNatPad 2 dd)) := by
        unfold formatDateChars
        rw [if_neg hyn, if_neg hyb]
        rfl
      rw [hfmt]
      have hyne : natToChars y.toNat ≠ [] := by
        unfold natToChars
        simp only [ne_eq, List.reverse_eq_nil_iff, List.map_eq_nil_iff]
        exact Nat.digits_ne_nil_iff_ne_zero.mpr (by omega)
      rw [parse_core false (natToChars y.toNat) (formatNatPad 2 m)
        (formatNatPad 2 dd) _ (splitSign_plus _) hyne
        (natToChars_all_dig _) hmne hmcs hdne hdcs]
      rw [if_neg (by simp), charsToNat_natToChars, hmval, hdval]
      have hyeq : (y.toNat : Int) = y := by omega
      rw [hyeq]
      exact fromYmd?_valid_eq hv

theorem parseWeekday_name (w : Weekday) :
    parseWeekday (weekdayName w) = some w := by
  cases w <;> rfl

theorem parseNth_name (n : NthWeek) : parseNth (nthName n) = some n := by
  cases n <;> rfl

theorem decOptInt_enc (o : Option Int) : decOptInt (encOptInt o) = some o := by
  cases o <;> rfl

theorem decOptHalf_enc (o : Option HalfCheck) :
    decOptHalf (encOptHalf o) = some o := by
  cases o with
  | none => rfl
  | some hc => cases hc <;> rfl

theorem decNat_enc (n : Nat) : decNat (.num (n : Int)) = some n := by
  show (if 0 ≤ (n : Int) then some (n : Int).toNat else none) = some n
  rw [if_pos (Int.natCast_nonneg n)]
  simp

theorem decodeDate_enc {d : Date} (hv : d.Valid) :
    decodeDate (encodeDate d) = some d := by
  show parseDateChars (String.mk (formatDateChars d)).data = some d
  show parseDateChars (formatDateChars d) = some d
  exact parseDateChars_format hv

theorem decodeHoliday_enc (h : Holiday) (hwf : HolidayWF h) :
    decodeHoliday (encodeHoliday h) = some h := by
  cases h with
  | WeekDay w =>
    show decodeVariant "WeekDay" (.str (weekdayName w)) = some (.WeekDay w)
    unfold decodeVariant
    rw [if_pos rfl]
    simp [decWeekDayV, parseWeekday_name]
  | MovableYearlyDay m d f l hc =>
    show decodeVariant "MovableYearlyDay"
      (.obj [("month", .num m), ("day", .num d), ("first", encOptInt f),
        ("last", encOptInt l), ("half_check", encOptHalf hc)]) =
      some (.MovableYearlyDay m d f l hc)
    unfold decodeVariant
    rw [if_neg (by decide), if_pos rfl]
    simp [decMovableV, decNat_enc, decOptInt_enc, decOptHalf_enc]
  | SingularDay d =>
    have hv : d.Valid := hwf
    show decodeVariant "SingularDay" (encodeDate d) = some (.SingularDay d)
    unfold decodeVariant
    rw [if_neg (by decide), if_neg (by decide), if_pos rfl]
    simp [decSingularV, decodeDate_enc hv]
  | EasterOffset o f l =>
    show decodeVariant "EasterOffset"
      (.obj [("offset", .num o), ("first", encOptInt f),
        ("last", encOptInt l)]) = some (.EasterOffset o f l)
    unfold decodeVariant
    rw [if_neg (by decide), if_neg (by decide), if_neg (by decide), if_pos rfl]
    simp [decEasterV, decInt, decOptInt_enc]
  | MonthWeekday m w n f l hc =>
    show decodeVariant "MonthWeekday"
      (.obj [("month", .num m), ("weekday", .str (weekdayName w)),
        ("nth", .str (nthName n)), ("first", encOptInt f),
        ("last", encOptInt l), ("half_check", encOptHalf hc)]) =
      some (.MonthWeekday m w n f l hc)
    unfold decodeVariant
    rw [if_neg (by decide), if_neg (by decide), if_neg (by decide),
      if_neg (by decide), if_pos rfl]
    simp [decMonthWeekdayV, decNat_enc, parseWeekday_name, parseNth_name,
      decOptInt_enc, decOptHalf_enc]

/-- C9: the structured-text (JSON) encoding of a rule list round-trips:
decoding the encoding yields an equal list for every variant, and unset
optional fields encode as explicit `null` and decode back to not-set. (The
only well-formedness assumption is the one the Rust types enforce by
construction: embedded dates are valid.) -/
theorem decode_encode_rules :
    (∀ rs : List Holiday, (∀ h ∈ rs, HolidayWF h) →
      decodeRules (encodeRules rs) = some rs) ∧
    encOptInt none = Json.null ∧ decOptInt Json.null = some none ∧
    encOptHalf none = Json.null ∧ decOptHalf Json.null = some none := by
  refine ⟨?_, rfl, rfl, rfl, rfl⟩
  intro rs hwf
  show decodeRulesList (rs.map encodeHoliday) = some rs
  induction rs with
  | nil => rfl
  | cons r rest ih =>
    simp only [List.map_cons, decodeRulesList]
    rw [decodeHoliday_enc r (hwf r (by simp)),
      ih (fun h hm => hwf h (by simp [hm]))]

theorem c9_witness :
    decodeRules (encodeRules
      [Holiday.MonthWeekday 11 .mon .First none none none,
       Holiday.MovableYearlyDay 11 1 (some 2016) none none,
       Holiday.SingularDay ⟨2019, 11, 25⟩,
       Holiday.WeekDay .sat,
       Holiday.EasterOffset (-2) none none]) =
    some [Holiday.MonthWeekday 11 .mon .First none none none,
       Holiday.MovableYearlyDay 11 1 (some 2016) none none,
       Holiday.SingularDay ⟨2019, 11, 25⟩,
       Holiday.WeekDay .sat,
       Holiday.EasterOffset (-2) none none] :=
  decode_encode_rules.1 _ (by decide)
